import Mathlib

/-!
Verification development for the ggca correlation-analysis crate.

The Rust sources are shallowly embedded:

* `f64` values are modelled by `FP`: exact rationals extended with the IEEE
  special values `inf`, `neginf` and `nan`.  Arithmetic on finite values is
  exact (rounding and overflow are not modelled); propagation of the special
  values follows the IEEE rules used by Rust (`min`, comparisons returning
  `false` on NaN, division by zero producing infinities or NaN, ...).
* `f64::sqrt` is modelled by `FP.sqrt`, which is exact on perfect squares
  (the only places where theorems rely on its value) and a `Nat.sqrt`-based
  approximation elsewhere.
* Iterator pipelines become `List` transformations in the order the Rust
  iterator chain applies them.
-/

namespace Ggca

/-- Model of an `f64` value: an exact rational, one of the two infinities,
or NaN.  Rounding of finite arithmetic is not modelled. -/
inductive FP where
  | fin (q : ℚ)
  | inf
  | neginf
  | nan
deriving DecidableEq, Repr

namespace FP

/-- Model of `f64::is_nan`. -/
def isNaN : FP → Bool
  | nan => true
  | _ => false

/-- Model of `f64` negation. -/
def neg : FP → FP
  | fin q => fin (-q)
  | inf => neginf
  | neginf => inf
  | nan => nan

/-- Model of `f64` addition (exact on finite values). -/
def add : FP → FP → FP
  | nan, _ => nan
  | _, nan => nan
  | inf, neginf => nan
  | neginf, inf => nan
  | inf, _ => inf
  | _, inf => inf
  | neginf, _ => neginf
  | _, neginf => neginf
  | fin a, fin b => fin (a + b)

/-- Model of `f64` subtraction (exact on finite values). -/
def sub (a b : FP) : FP := a.add b.neg

/-- Model of `f64` multiplication (exact on finite values). -/
def mul : FP → FP → FP
  | nan, _ => nan
  | _, nan => nan
  | fin a, fin b => fin (a * b)
  | fin a, inf => if 0 < a then inf else if a < 0 then neginf else nan
  | fin a, neginf => if 0 < a then neginf else if a < 0 then inf else nan
  | inf, fin b => if 0 < b then inf else if b < 0 then neginf else nan
  | neginf, fin b => if 0 < b then neginf else if b < 0 then inf else nan
  | inf, inf => inf
  | inf, neginf => neginf
  | neginf, inf => neginf
  | neginf, neginf => inf

/-- Model of `f64` division (exact on finite values; signed zeros are not
modelled, a finite value divided by zero gets the sign of the numerator). -/
def div : FP → FP → FP
  | nan, _ => nan
  | _, nan => nan
  | fin a, fin b =>
      if b = 0 then (if 0 < a then inf else if a < 0 then neginf else nan)
      else fin (a / b)
  | fin _, inf => fin 0
  | fin _, neginf => fin 0
  | inf, fin b => if b < 0 then neginf else inf
  | neginf, fin b => if b < 0 then inf else neginf
  | inf, inf => nan
  | inf, neginf => nan
  | neginf, inf => nan
  | neginf, neginf => nan

/-- Model of the IEEE partial order `<=` on `f64`: any comparison involving
NaN is `false`. -/
def leb : FP → FP → Bool
  | nan, _ => false
  | _, nan => false
  | neginf, _ => true
  | _, inf => true
  | inf, _ => false
  | _, neginf => false
  | fin a, fin b => a ≤ b

/-- Model of the IEEE strict order `<` on `f64`: any comparison involving
NaN is `false`. -/
def ltb : FP → FP → Bool
  | nan, _ => false
  | _, nan => false
  | neginf, neginf => false
  | neginf, _ => true
  | _, neginf => false
  | inf, _ => false
  | fin _, inf => true
  | fin a, fin b => a < b

/-- Model of `f64::min`: if one argument is NaN the other one is returned. -/
def min (a b : FP) : FP :=
  if a.isNaN then b else if b.isNaN then a else if a.leb b then a else b

/-- Model of `f64::clamp (lo, hi)`: NaN is passed through. -/
def clamp (a lo hi : FP) : FP :=
  if a.ltb lo then lo else if hi.ltb a then hi else a

/-- Model of `f64::abs`. -/
def abs : FP → FP
  | fin q => fin |q|
  | inf => inf
  | neginf => inf
  | nan => nan

/-- Rational square root helper: exact on perfect squares (numerator and
denominator both squares), a `Nat.sqrt` approximation otherwise. -/
def ratSqrt (q : ℚ) : ℚ :=
  (Nat.sqrt q.num.toNat : ℚ) / (Nat.sqrt q.den : ℚ)

/-- Model of `f64::sqrt`: NaN on negative arguments, exact on perfect
squares. -/
def sqrt : FP → FP
  | nan => nan
  | inf => inf
  | neginf => nan
  | fin q => if q < 0 then nan else fin (ratSqrt q)

/-- Total comparison used to model `partial_cmp(..).unwrap()`-based
comparators.  It agrees with the IEEE order whenever no NaN is involved (the
pipeline only ever compares NaN-free values there, as `unwrap` would panic
otherwise); NaN is placed greatest to make the relation total. -/
def leT : FP → FP → Bool
  | nan, nan => true
  | _, nan => true
  | nan, _ => false
  | neginf, _ => true
  | _, inf => true
  | inf, _ => false
  | _, neginf => false
  | fin a, fin b => a ≤ b

theorem ratSqrt_natCast_sq (n : ℕ) : ratSqrt ((n : ℚ) ^ 2) = n := by
  unfold ratSqrt
  rw [show ((n : ℚ) ^ 2) = ((n ^ 2 : ℕ) : ℚ) by push_cast; ring]
  rw [Rat.num_natCast, Rat.den_natCast]
  rw [Int.toNat_natCast, Nat.sqrt_eq', Nat.sqrt_one]
  norm_num

theorem sqrt_fin_sq (n : ℕ) : sqrt (fin ((n : ℚ) ^ 2)) = fin n := by
  show (if ((n : ℚ) ^ 2) < 0 then nan else fin (ratSqrt ((n : ℚ) ^ 2))) = fin n
  rw [if_neg (not_lt.mpr (by positivity)), ratSqrt_natCast_sq]

theorem ratSqrt_zero : ratSqrt 0 = 0 := by
  unfold ratSqrt
  norm_num

theorem ratSqrt_one : ratSqrt 1 = 1 := by
  unfold ratSqrt
  norm_num

theorem sqrt_fin_zero : sqrt (fin 0) = fin 0 := by
  have h := sqrt_fin_sq 0
  norm_num at h
  exact h

theorem sqrt_fin_one : sqrt (fin 1) = fin 1 := by
  have h := sqrt_fin_sq 1
  norm_num at h
  exact h

theorem sqrt_fin_four : sqrt (fin 4) = fin 2 := by
  have h := sqrt_fin_sq 2
  norm_num at h
  exact h

theorem sqrt_fin_nine : sqrt (fin 9) = fin 3 := by
  have h := sqrt_fin_sq 3
  norm_num at h
  exact h

theorem leT_total (a b : FP) : leT a b = true ∨ leT b a = true := by
  rcases a with a | _ | _ | _ <;> rcases b with b | _ | _ | _ <;>
    simp [leT] <;> exact le_total a b

theorem leT_trans {a b c : FP} (h₁ : leT a b = true) (h₂ : leT b c = true) :
    leT a c = true := by
  rcases a with a | _ | _ | _ <;> rcases b with b | _ | _ | _ <;>
    rcases c with c | _ | _ | _ <;> simp_all [leT] <;> exact le_trans h₁ h₂

theorem leb_trans {a b c : FP} (h₁ : leb a b = true) (h₂ : leb b c = true) :
    leb a c = true := by
  rcases a with a | _ | _ | _ <;> rcases b with b | _ | _ | _ <;>
    rcases c with c | _ | _ | _ <;> simp_all [leb] <;> exact le_trans h₁ h₂

theorem leb_refl {a : FP} (h : a.isNaN = false) : a.leb a = true := by
  rcases a with a | _ | _ | _ <;> simp_all [isNaN, leb]

theorem not_nan_of_leb {a b : FP} (h : a.leb b = true) :
    a.isNaN = false ∧ b.isNaN = false := by
  rcases a with a | _ | _ | _ <;> rcases b with b | _ | _ | _ <;>
    simp_all [isNaN, leb]

theorem leb_total_of_not_nan {a b : FP} (ha : a.isNaN = false)
    (hb : b.isNaN = false) : a.leb b = true ∨ b.leb a = true := by
  rcases a with a | _ | _ | _ <;> rcases b with b | _ | _ | _ <;>
    simp_all [isNaN, leb]
  exact le_total a b

theorem min_not_nan {a b : FP} (hb : b.isNaN = false) :
    (min a b).isNaN = false := by
  unfold min
  by_cases ha : a.isNaN = true
  · simp [ha, hb]
  · simp only [ha, hb, if_false]
    by_cases hl : a.leb b = true <;> simp_all

theorem min_choice {a b : FP} (hb : b.isNaN = false) :
    min a b = b ∨ (min a b = a ∧ a.leb b = true) := by
  unfold min
  by_cases ha : a.isNaN = true
  · simp [ha]
  · simp only [ha, hb, if_false]
    by_cases hl : a.leb b = true <;> simp [hl]

theorem min_leb_right {a : FP} {c : ℚ} : (min a (fin c)).leb (fin c) = true := by
  rcases @min_choice a (fin c) rfl with h | ⟨h, hl⟩ <;> rw [h]
  · exact leb_refl rfl
  · exact hl

theorem min_eq_left {a b : FP} (h : a.leb b = true) : min a b = a := by
  obtain ⟨ha, hb⟩ := not_nan_of_leb h
  unfold min
  simp [ha, hb, h]

/-- The clamped update `min (min x prev) 1` never exceeds the previous
value, whenever the previous value is not NaN. -/
theorem clampStep_leb_prev {x prev : FP} (hp : prev.isNaN = false) :
    ((x.min prev).min (fin 1)).leb prev = true := by
  have one_nn : (fin (1 : ℚ)).isNaN = false := rfl
  have hm_nn : (x.min prev).isNaN = false := min_not_nan hp
  have hm_leb : (x.min prev).leb prev = true := by
    rcases @min_choice x prev hp with h0 | ⟨h0, hl0⟩
    · rw [h0]
      exact leb_refl hp
    · rw [h0]
      exact hl0
  rcases leb_total_of_not_nan hm_nn one_nn with h | h
  · rw [min_eq_left h]
    exact hm_leb
  · rcases @min_choice (x.min prev) (fin (1 : ℚ)) rfl with h1 | ⟨h1, _⟩
    · rw [h1]
      exact leb_trans h hm_leb
    · rw [h1]
      exact hm_leb

theorem clampStep_leb_one {x prev : FP} :
    ((x.min prev).min (fin 1)).leb (fin 1) = true := min_leb_right

theorem clampStep_not_nan {x prev : FP} :
    ((x.min prev).min (fin 1)).isNaN = false := min_not_nan rfl

end FP

/-! ### adjustment.rs -/

/-- The `AdjustmentMethod` enum of `adjustment.rs`. -/
inductive AdjustmentMethod where
  | BenjaminiHochberg
  | BenjaminiYekutieli
  | Bonferroni
deriving DecidableEq, Repr

/-- The value of `f64::MAX`, used as the initial `previous_max_p_value`. -/
def f64MAX : ℚ := (2 ^ 53 - 1) * 2 ^ 971

/-- The harmonic accumulator `(1..=n).fold(0.0, |acc, x| acc + 1.0 / x)`
computed by `BenjaminiYekutieli::new`. -/
def harmonicAccumulator (n : ℕ) : ℚ :=
  (List.range n).foldl (fun acc k => acc + 1 / (k + 1 : ℚ)) 0

/-- The state of a `Box<dyn Adjustment>` object: one variant per struct
(`Bonferroni`, `BenjaminiHochberg`, `BenjaminiYekutieli`) with the fields of
the Rust struct. -/
inductive AdjustmentState where
  | bonferroni (total_number_of_elements : FP)
  | benjaminiHochberg (total_number_of_elements previous_max_p_value : FP)
  | benjaminiYekutieli (total_number_of_elements previous_max_p_value accumulator : FP)
deriving DecidableEq, Repr

/-- `get_adjustment_method`: builds the initial adjustment state.  The Rust
function receives the element count already cast to `f64`; the cast is exact
in this model. -/
def get_adjustment_method (m : AdjustmentMethod) (total : ℕ) : AdjustmentState :=
  match m with
  | .Bonferroni => .bonferroni (.fin total)
  | .BenjaminiHochberg => .benjaminiHochberg (.fin total) (.fin f64MAX)
  | .BenjaminiYekutieli =>
      .benjaminiYekutieli (.fin total) (.fin f64MAX) (.fin (harmonicAccumulator total))

/-- One call of `Adjustment::adjust(p_value, rank)`: returns the adjusted
p-value and the mutated state. -/
def adjStep : AdjustmentState → FP → ℕ → FP × AdjustmentState
  | .bonferroni t, p, _ => ((p.mul t).min (.fin 1), .bonferroni t)
  | .benjaminiHochberg t prev, p, rank =>
      let valid_rank := t.sub (.fin rank)
      let q := p.mul (t.div valid_rank)
      let q2 := (q.min prev).min (.fin 1)
      (q2, .benjaminiHochberg t q2)
  | .benjaminiYekutieli t prev acc, p, rank =>
      let valid_rank := t.sub (.fin rank)
      let adjustment_factor := (acc.mul t).div valid_rank
      let q := p.mul adjustment_factor
      let q2 := (q.min prev).min (.fin 1)
      (q2, .benjaminiYekutieli t q2 acc)

/-- Calling `adjust` once per p-value, with strictly increasing ranks
starting at `rank` (the pipeline enumerates ranks `0..N-1`). -/
def adjustSeq (st : AdjustmentState) (rank : ℕ) : List FP → List FP
  | [] => []
  | p :: ps =>
      let r := adjStep st p rank
      r.1 :: adjustSeq r.2 (rank + 1) ps

theorem adjustSeq_bh_chain (t : FP) (ps : List FP) :
    ∀ (prev : FP) (rank : ℕ), prev.isNaN = false →
      List.Chain (fun a b => b.leb a = true) prev
        (adjustSeq (.benjaminiHochberg t prev) rank ps) := by
  induction ps with
  | nil => intro prev rank _; exact List.Chain.nil
  | cons p ps ih =>
      intro prev rank hp
      refine List.Chain.cons ?_ (ih _ _ FP.clampStep_not_nan)
      exact FP.clampStep_leb_prev hp

theorem adjustSeq_byk_chain (t acc : FP) (ps : List FP) :
    ∀ (prev : FP) (rank : ℕ), prev.isNaN = false →
      List.Chain (fun a b => b.leb a = true) prev
        (adjustSeq (.benjaminiYekutieli t prev acc) rank ps) := by
  induction ps with
  | nil => intro prev rank _; exact List.Chain.nil
  | cons p ps ih =>
      intro prev rank hp
      refine List.Chain.cons ?_ (ih _ _ FP.clampStep_not_nan)
      exact FP.clampStep_leb_prev hp

theorem adjustSeq_bh_le_one (t : FP) (ps : List FP) :
    ∀ (prev : FP) (rank : ℕ),
      (adjustSeq (.benjaminiHochberg t prev) rank ps).all
        (fun q => q.leb (.fin 1)) = true := by
  induction ps with
  | nil => intro prev rank; rfl
  | cons p ps ih =>
      intro prev rank
      simp only [adjustSeq, List.all_cons, Bool.and_eq_true]
      exact ⟨FP.clampStep_leb_one, ih _ _⟩

theorem adjustSeq_byk_le_one (t acc : FP) (ps : List FP) :
    ∀ (prev : FP) (rank : ℕ),
      (adjustSeq (.benjaminiYekutieli t prev acc) rank ps).all
        (fun q => q.leb (.fin 1)) = true := by
  induction ps with
  | nil => intro prev rank; rfl
  | cons p ps ih =>
      intro prev rank
      simp only [adjustSeq, List.all_cons, Bool.and_eq_true]
      exact ⟨FP.clampStep_leb_one, ih _ _⟩

theorem chain'_of_chain {l : List FP} {a : FP}
    (h : List.Chain (fun a b => b.leb a = true) a l) :
    List.Chain' (fun a b => b.leb a = true) l := by
  have h' : List.Chain' (fun a b => b.leb a = true) (a :: l) := h
  simpa using h'.tail

/-- C1: for BenjaminiHochberg and BenjaminiYekutieli, when `adjust` is
called once per surviving record in strictly increasing rank order `0..N-1`,
every returned adjusted p-value is at most 1 and at most the previous call's
return value, so the output sequence is non-increasing and, read back in
p-value-ascending (reversed) order, non-decreasing. -/
theorem claim_C1_bh_by_adjust_monotone (n : ℕ) (ps : List FP) :
    (((adjustSeq (get_adjustment_method .BenjaminiHochberg n) 0 ps).all
        (fun q => q.leb (.fin 1)) = true)
      ∧ List.Chain' (fun a b => b.leb a = true)
          (adjustSeq (get_adjustment_method .BenjaminiHochberg n) 0 ps)
      ∧ List.Chain' (fun a b => a.leb b = true)
          (adjustSeq (get_adjustment_method .BenjaminiHochberg n) 0 ps).reverse)
    ∧ (((adjustSeq (get_adjustment_method .BenjaminiYekutieli n) 0 ps).all
        (fun q => q.leb (.fin 1)) = true)
      ∧ List.Chain' (fun a b => b.leb a = true)
          (adjustSeq (get_adjustment_method .BenjaminiYekutieli n) 0 ps)
      ∧ List.Chain' (fun a b => a.leb b = true)
          (adjustSeq (get_adjustment_method .BenjaminiYekutieli n) 0 ps).reverse) := by
  have hbh := chain'_of_chain (adjustSeq_bh_chain (.fin n) ps (.fin f64MAX) 0 rfl)
  have hbyk := chain'_of_chain
    (adjustSeq_byk_chain (.fin n) (.fin (harmonicAccumulator n)) ps (.fin f64MAX) 0 rfl)
  refine ⟨⟨adjustSeq_bh_le_one _ _ _ _, hbh, ?_⟩,
    ⟨adjustSeq_byk_le_one _ _ _ _ _, hbyk, ?_⟩⟩
  · exact List.chain'_reverse.mpr hbh
  · exact List.chain'_reverse.mpr hbyk

/-! ### external_sort.rs -/

section ExternalSort

variable {α : Type} [LinearOrder α]

/-- The buffering loop of `ExternalSorter::sort`: each incoming item is
pushed into `buf`, but when `buf.len() == max_size` the buffer is first
flushed as one chunk (`write_chunk`); a final non-empty buffer is flushed
after the input is exhausted.  Returns the chunks in write order (their
contents still unsorted; `write_chunk`'s sort is applied separately). -/
def fillChunks (maxSize : ℕ) : List α → List α → List (List α)
  | buf, [] => if buf = [] then [] else [buf]
  | buf, item :: rest =>
      if buf.length = maxSize then buf :: fillChunks maxSize [item] rest
      else fillChunks maxSize (buf ++ [item]) rest

/-- One step of the k-way merge (`itertools::kmerge`): extract the least
head among the non-empty segment readers (the earliest segment on ties),
returning it together with the remaining segments. -/
def popMin : List (List α) → Option (α × List (List α))
  | [] => none
  | [] :: rest => (popMin rest).map (fun r => (r.1, [] :: r.2))
  | (a :: as) :: rest =>
      match popMin rest with
      | none => some (a, as :: rest)
      | some (b, rest') =>
          if a ≤ b then some (a, as :: rest) else some (b, (a :: as) :: rest')

theorem popMin_empty_cons (rest : List (List α)) :
    popMin ([] :: rest) = (popMin rest).map (fun r => (r.1, [] :: r.2)) := rfl

theorem popMin_cons_none {rest : List (List α)} (h : popMin rest = none)
    (a : α) (as : List α) : popMin ((a :: as) :: rest) = some (a, as :: rest) := by
  unfold popMin
  rw [h]

theorem popMin_cons_some_le {rest : List (List α)} {b : α} {rest' : List (List α)}
    (h : popMin rest = some (b, rest')) {a : α} (hle : a ≤ b) (as : List α) :
    popMin ((a :: as) :: rest) = some (a, as :: rest) := by
  unfold popMin
  rw [h]
  simp [hle]

theorem popMin_cons_some_gt {rest : List (List α)} {b : α} {rest' : List (List α)}
    (h : popMin rest = some (b, rest')) {a : α} (hle : ¬a ≤ b) (as : List α) :
    popMin ((a :: as) :: rest) = some (b, (a :: as) :: rest') := by
  unfold popMin
  rw [h]
  simp [hle]

theorem popMin_sum_length :
    ∀ {ls : List (List α)} {a : α} {ls' : List (List α)},
      popMin ls = some (a, ls') →
      (ls'.map List.length).sum + 1 = (ls.map List.length).sum := by
  intro ls
  induction ls with
  | nil => intro a ls' h; simp [popMin] at h
  | cons hd rest ih =>
      intro a ls' h
      match hd with
      | [] =>
          rw [popMin_empty_cons, Option.map_eq_some'] at h
          obtain ⟨⟨b, rest'⟩, hb, hr⟩ := h
          injection hr with h1 h2
          subst h1
          subst h2
          have := ih hb
          simp only [List.map_cons, List.sum_cons, List.length_nil]
          omega
      | c :: cs =>
          rcases hrec : popMin rest with _ | ⟨b, rest'⟩
          · rw [popMin_cons_none hrec] at h
            injection h with h'
            injection h' with h1 h2
            subst h1
            subst h2
            simp
            omega
          · by_cases hle : c ≤ b
            · rw [popMin_cons_some_le hrec hle] at h
              injection h with h'
              injection h' with h1 h2
              subst h1
              subst h2
              simp
              omega
            · rw [popMin_cons_some_gt hrec hle] at h
              injection h with h'
              injection h' with h1 h2
              subst h1
              subst h2
              have := ih hrec
              simp only [List.map_cons, List.sum_cons] at *
              omega

theorem popMin_none_join {ls : List (List α)} (h : popMin ls = none) :
    ls.flatten = [] := by
  induction ls with
  | nil => rfl
  | cons hd rest ih =>
      match hd with
      | [] =>
          rw [popMin_empty_cons, Option.map_eq_none'] at h
          simpa using ih h
      | c :: cs =>
          rcases hrec : popMin rest with _ | ⟨b, rest'⟩
          · rw [popMin_cons_none hrec] at h
            exact absurd h (by simp)
          · by_cases hle : c ≤ b
            · rw [popMin_cons_some_le hrec hle] at h
              exact absurd h (by simp)
            · rw [popMin_cons_some_gt hrec hle] at h
              exact absurd h (by simp)

theorem popMin_perm :
    ∀ {ls : List (List α)} {a : α} {ls' : List (List α)},
      popMin ls = some (a, ls') → List.Perm (a :: ls'.flatten) ls.flatten := by
  intro ls
  induction ls with
  | nil => intro a ls' h; simp [popMin] at h
  | cons hd rest ih =>
      intro a ls' h
      match hd with
      | [] =>
          rw [popMin_empty_cons, Option.map_eq_some'] at h
          obtain ⟨⟨b, rest'⟩, hb, hr⟩ := h
          injection hr with h1 h2
          subst h1
          subst h2
          simpa using ih hb
      | c :: cs =>
          rcases hrec : popMin rest with _ | ⟨b, rest'⟩
          · rw [popMin_cons_none hrec] at h
            injection h with h'
            injection h' with h1 h2
            subst h1
            subst h2
            simp
          · by_cases hle : c ≤ b
            · rw [popMin_cons_some_le hrec hle] at h
              injection h with h'
              injection h' with h1 h2
              subst h1
              subst h2
              simp
            · rw [popMin_cons_some_gt hrec hle] at h
              injection h with h'
              injection h' with h1 h2
              subst h1
              subst h2
              have hih := ih hrec
              simp only [List.flatten_cons]
              refine List.Perm.trans List.perm_middle.symm ?_
              exact List.Perm.append_left _ hih

theorem popMin_min :
    ∀ {ls : List (List α)} {a : α} {ls' : List (List α)},
      (∀ l ∈ ls, List.Sorted (· ≤ ·) l) →
      popMin ls = some (a, ls') → ∀ x ∈ ls'.flatten, a ≤ x := by
  intro ls
  induction ls with
  | nil => intro a ls' _ h; simp [popMin] at h
  | cons hd rest ih =>
      intro a ls' hs h
      have hs_rest : ∀ l ∈ rest, List.Sorted (· ≤ ·) l :=
        fun l hl => hs l (List.mem_cons_of_mem _ hl)
      match hd with
      | [] =>
          rw [popMin_empty_cons, Option.map_eq_some'] at h
          obtain ⟨⟨b, rest'⟩, hb, hr⟩ := h
          injection hr with h1 h2
          subst h1
          subst h2
          intro x hx
          exact ih hs_rest hb x (by simpa using hx)
      | c :: cs =>
          have hsorted : List.Sorted (· ≤ ·) (c :: cs) := hs _ (List.mem_cons_self _ _)
          have hc_le : ∀ x ∈ cs, c ≤ x := (List.sorted_cons.mp hsorted).1
          rcases hrec : popMin rest with _ | ⟨b, rest'⟩
          · rw [popMin_cons_none hrec] at h
            injection h with h'
            injection h' with h1 h2
            subst h1
            subst h2
            intro x hx
            rw [List.flatten_cons, List.mem_append, popMin_none_join hrec] at hx
            rcases hx with hx | hx
            · exact hc_le x hx
            · simp at hx
          · by_cases hle : c ≤ b
            · rw [popMin_cons_some_le hrec hle] at h
              injection h with h'
              injection h' with h1 h2
              subst h1
              subst h2
              intro x hx
              rw [List.flatten_cons, List.mem_append] at hx
              rcases hx with hx | hx
              · exact hc_le x hx
              · have hx' : x ∈ b :: rest'.flatten := (popMin_perm hrec).symm.mem_iff.mp hx
                rcases List.mem_cons.mp hx' with hx' | hx'
                · rw [hx']; exact hle
                · exact le_trans hle (ih hs_rest hrec x hx')
            · rw [popMin_cons_some_gt hrec hle] at h
              injection h with h'
              injection h' with h1 h2
              subst h1
              subst h2
              have hba : b ≤ c := le_of_not_le hle
              intro x hx
              rw [List.flatten_cons, List.mem_append] at hx
              rcases hx with hx | hx
              · rcases List.mem_cons.mp hx with hx | hx
                · rw [hx]; exact hba
                · exact le_trans hba (hc_le x hx)
              · exact ih hs_rest hrec x hx

theorem popMin_sorted :
    ∀ {ls : List (List α)} {a : α} {ls' : List (List α)},
      (∀ l ∈ ls, List.Sorted (· ≤ ·) l) →
      popMin ls = some (a, ls') → ∀ l ∈ ls', List.Sorted (· ≤ ·) l := by
  intro ls
  induction ls with
  | nil => intro a ls' _ h; simp [popMin] at h
  | cons hd rest ih =>
      intro a ls' hs h
      have hs_rest : ∀ l ∈ rest, List.Sorted (· ≤ ·) l :=
        fun l hl => hs l (List.mem_cons_of_mem _ hl)
      match hd with
      | [] =>
          rw [popMin_empty_cons, Option.map_eq_some'] at h
          obtain ⟨⟨b, rest'⟩, hb, hr⟩ := h
          injection hr with h1 h2
          subst h1
          subst h2
          intro l hl
          rcases List.mem_cons.mp hl with hl | hl
          · rw [hl]; exact List.sorted_nil
          · exact ih hs_rest hb l hl
      | c :: cs =>
          have hsorted : List.Sorted (· ≤ ·) (c :: cs) := hs _ (List.mem_cons_self _ _)
          rcases hrec : popMin rest with _ | ⟨b, rest'⟩
          · rw [popMin_cons_none hrec] at h
            injection h with h'
            injection h' with h1 h2
            subst h1
            subst h2
            intro l hl
            rcases List.mem_cons.mp hl with hl | hl
            · rw [hl]; exact hsorted.of_cons
            · exact hs_rest l hl
          · by_cases hle : c ≤ b
            · rw [popMin_cons_some_le hrec hle] at h
              injection h with h'
              injection h' with h1 h2
              subst h1
              subst h2
              intro l hl
              rcases List.mem_cons.mp hl with hl | hl
              · rw [hl]; exact hsorted.of_cons
              · exact hs_rest l hl
            · rw [popMin_cons_some_gt hrec hle] at h
              injection h with h'
              injection h' with h1 h2
              subst h1
              subst h2
              intro l hl
              rcases List.mem_cons.mp hl with hl | hl
              · rw [hl]; exact hsorted
              · exact ih hs_rest hrec l hl

/-- The k-way merge (`itertools::kmerge`): repeatedly emit the least unread
head among the segments, lazily, until all segments are exhausted. -/
def kmerge (ls : List (List α)) : List α :=
  if h : (popMin ls).isSome then
    have hlt : ((((popMin ls).get h).2).map List.length).sum < (ls.map List.length).sum := by
      have hsum := @popMin_sum_length _ _ ls ((popMin ls).get h).1
        ((popMin ls).get h).2 (by simp)
      omega
    ((popMin ls).get h).1 :: kmerge ((popMin ls).get h).2
  else []
termination_by (ls.map List.length).sum

theorem kmerge_of_none {ls : List (List α)} (h : popMin ls = none) :
    kmerge ls = [] := by
  rw [kmerge, dif_neg]
  simp [h]

theorem kmerge_of_some {ls : List (List α)} {a : α} {ls' : List (List α)}
    (h : popMin ls = some (a, ls')) : kmerge ls = a :: kmerge ls' := by
  rw [kmerge, dif_pos (by simp [h])]
  simp [h]

theorem kmerge_sorted_perm :
    ∀ (n : ℕ) (ls : List (List α)), (ls.map List.length).sum = n →
      (∀ l ∈ ls, List.Sorted (· ≤ ·) l) →
      List.Perm (kmerge ls) ls.flatten ∧ List.Sorted (· ≤ ·) (kmerge ls) := by
  intro n
  induction n using Nat.strong_induction_on with
  | _ n ih =>
      intro ls hn hs
      rcases hpop : popMin ls with _ | ⟨a, ls'⟩
      · rw [kmerge_of_none hpop]
        simpa [popMin_none_join hpop] using List.sorted_nil
      · rw [kmerge_of_some hpop]
        have hlen := popMin_sum_length hpop
        have hrec := ih ((ls'.map List.length).sum) (by omega) ls' rfl
          (popMin_sorted hs hpop)
        constructor
        · exact (hrec.1.cons a).trans (popMin_perm hpop)
        · rw [List.sorted_cons]
          refine ⟨fun b hb => ?_, hrec.2⟩
          exact popMin_min hs hpop b (hrec.1.mem_iff.mp hb)

/-- `ExternalSorter::sort`: buffer the input into chunks of `max_size`
items, sort each chunk (`write_chunk`'s `par_sort_unstable`), then k-way
merge the sorted chunks. -/
def extSort (maxSize : ℕ) (l : List α) : List α :=
  kmerge ((fillChunks maxSize [] l).map (fun c => c.mergeSort (fun a b => a ≤ b)))

theorem fillChunks_join (maxSize : ℕ) :
    ∀ (l buf : List α), (fillChunks maxSize buf l).flatten = buf ++ l := by
  intro l
  induction l with
  | nil =>
      intro buf
      by_cases hb : buf = [] <;> simp [fillChunks, hb]
  | cons item rest ih =>
      intro buf
      by_cases hl : buf.length = maxSize <;> simp [fillChunks, hl, ih]

theorem join_map_mergeSort (cs : List (List α)) :
    List.Perm ((cs.map (fun c => c.mergeSort (fun a b => a ≤ b))).flatten) cs.flatten := by
  induction cs with
  | nil => rfl
  | cons c cs ih =>
      simp only [List.map_cons, List.flatten_cons]
      exact (List.mergeSort_perm c _).append ih

/-- C5: for every finite input sequence and every memory budget,
`ExternalSorter::sort` yields exactly the input elements in the order an
in-memory sort under the element ordering would produce: it equals
`insertionSort`, is a permutation of the input, and is sorted. -/
theorem claim_C5_external_sort_roundtrip (maxSize : ℕ) (l : List α) :
    extSort maxSize l = List.insertionSort (· ≤ ·) l
    ∧ List.Perm (extSort maxSize l) l
    ∧ List.Sorted (· ≤ ·) (extSort maxSize l) := by
  have hsorted_chunks : ∀ c ∈ (fillChunks maxSize [] l).map
      (fun c => c.mergeSort (fun a b => a ≤ b)), List.Sorted (· ≤ ·) c := by
    intro c hc
    rw [List.mem_map] at hc
    obtain ⟨c0, _, hc0⟩ := hc
    rw [← hc0]
    exact List.sorted_mergeSort' c0
  have hmain := kmerge_sorted_perm _ _ rfl hsorted_chunks
  have hperm : List.Perm (extSort maxSize l) l := by
    refine hmain.1.trans ((join_map_mergeSort _).trans ?_)
    rw [fillChunks_join]
    simp
  refine ⟨?_, hperm, hmain.2⟩
  exact List.eq_of_perm_of_sorted (hperm.trans (List.perm_insertionSort _ l).symm)
    hmain.2 (List.sorted_insertionSort _ l)

end ExternalSort

/-! ### correlation.rs: Pearson -/

/-- The running sums accumulated by the loop of `pearson_correlation`. -/
structure PearsonSums where
  sum_x : FP
  sum_y : FP
  sum_xy : FP
  sum_x2 : FP
  sum_y2 : FP

/-- `pearson_correlation`: sums of x, y, xy, x², y², then
`numerator / denominator` with the usual closed forms.  The Rust loop
indexes both slices by `0..x.len()`; the `zip` here coincides with it for
equal-length inputs. -/
def pearson_correlation (x y : List FP) : FP :=
  let n : FP := .fin (x.length : ℚ)
  let s := (x.zip y).foldl
    (fun s p =>
      { sum_x := s.sum_x.add p.1
        sum_y := s.sum_y.add p.2
        sum_xy := s.sum_xy.add (p.1.mul p.2)
        sum_x2 := s.sum_x2.add (p.1.mul p.1)
        sum_y2 := s.sum_y2.add (p.2.mul p.2) })
    (PearsonSums.mk (.fin 0) (.fin 0) (.fin 0) (.fin 0) (.fin 0))
  let numerator := s.sum_xy.sub ((s.sum_x.mul s.sum_y).div n)
  let denominator :=
    ((s.sum_x2.sub ((s.sum_x.mul s.sum_x).div n)).mul
      (s.sum_y2.sub ((s.sum_y.mul s.sum_y).div n))).sqrt
  numerator.div denominator

/-- Modelled from the spec: the Student's-t CDF supplied by the external
statrs collaborator ("p = 2·min(CDF(t), 1−CDF(t)) under a Student's-t
distribution").  Only its special-value behaviour is relied upon: limits 0
and 1 at the infinities, NaN propagation; at finite arguments the value is
an unspecified placeholder inside (0, 1). -/
def studentCdf : FP → FP
  | .inf => .fin 1
  | .neginf => .fin 0
  | .nan => .nan
  | .fin _ => .fin (1 / 2)

/-- The `Pearson` struct: degrees of freedom `(n - 2) as f64` (the Rust
`usize` subtraction is modelled by truncated subtraction; the pipeline
always calls it with the sample count of a non-empty row). -/
structure Pearson where
  degrees_of_freedom : FP

def Pearson.new (n : ℕ) : Pearson := ⟨.fin ((n - 2 : ℕ) : ℚ)⟩

/-- The t statistic `self.degrees_of_freedom.sqrt() * r / (1.0 - r.powi(2)).sqrt()`
computed inside `<Pearson as Correlation>::correlate`. -/
def Pearson.statistic (pr : Pearson) (x y : List FP) : FP :=
  let r := pearson_correlation x y
  (pr.degrees_of_freedom.sqrt.mul r).div (((FP.fin 1).sub (r.mul r)).sqrt)

/-- `<Pearson as Correlation>::correlate`. -/
def Pearson.correlate (pr : Pearson) (x y : List FP) : FP × FP :=
  let r := pearson_correlation x y
  let statistic := pr.statistic x y
  if statistic.isNaN then (r, .nan)
  else
    let cdf := studentCdf statistic
    let ccdf := (FP.fin 1).sub cdf
    let p_value := (FP.fin 2).mul (cdf.min ccdf)
    (r, p_value)

/-- C3 counterexample: on the equal inputs `[1, 2, 3]` the t statistic is
`+inf` — non-finite — yet `correlate` returns the p-value `0`, not NaN:
the code only tests `is_nan()`, so an infinite t falls through to the CDF
branch.  This refutes the claim as stated. -/
theorem claim_C3_cx :
    (Pearson.new 3).statistic [FP.fin 1, FP.fin 2, FP.fin 3]
        [FP.fin 1, FP.fin 2, FP.fin 3] = FP.inf
    ∧ ((Pearson.new 3).correlate [FP.fin 1, FP.fin 2, FP.fin 3]
        [FP.fin 1, FP.fin 2, FP.fin 3]).2 = FP.fin 0 := by
  have hstat : (Pearson.new 3).statistic [FP.fin 1, FP.fin 2, FP.fin 3]
      [FP.fin 1, FP.fin 2, FP.fin 3] = FP.inf := by
    norm_num [Pearson.new, Pearson.statistic, pearson_correlation,
      FP.add, FP.sub, FP.neg, FP.mul, FP.div,
      FP.sqrt_fin_zero, FP.sqrt_fin_one, FP.sqrt_fin_four]
  refine ⟨hstat, ?_⟩
  rw [Pearson.correlate, hstat]
  norm_num [Pearson.new, pearson_correlation, studentCdf,
    FP.add, FP.sub, FP.neg, FP.mul, FP.div,
    FP.sqrt_fin_zero, FP.sqrt_fin_one, FP.sqrt_fin_four,
    FP.min, FP.isNaN, FP.leb]

/-- C3 (amended): for every pair of input vectors, the returned p-value is
NaN exactly when the t statistic is NaN; an infinite t instead produces the
finite value `2·min(CDF(t), 1−CDF(t))`. -/
theorem claim_C3_pearson_nan_pvalue (pr : Pearson) (x y : List FP) :
    ((pr.correlate x y).2).isNaN = (pr.statistic x y).isNaN := by
  unfold Pearson.correlate
  rcases h : pr.statistic x y with q | _ | _ | _ <;>
    simp [h, studentCdf, FP.isNaN, FP.sub, FP.add, FP.neg, FP.mul, FP.min, FP.leb] <;>
    norm_num [FP.isNaN]

/-! ### analysis.rs -/

/-- The `CorResult` struct of `correlation.rs`. -/
structure CorResult where
  gene : String
  gem : String
  cpg_site_id : Option String
  correlation : Option FP
  p_value : Option FP
  adjusted_p_value : Option FP
deriving DecidableEq, Repr

/-- `TupleExpressionValues`: a dataset row
`(String, Option<String>, Vec<f64>)`. -/
abbrev TupleExpressionValues := String × Option String × List FP

/-- `get_correlation_result` of `analysis.rs`.  `correlate` stands for the
`&dyn Correlation` strategy object. -/
def get_correlation_result (correlate : List FP → List FP → FP × FP)
    (tuple_1 tuple_2 : TupleExpressionValues) : CorResult :=
  let r := correlate tuple_1.2.2 tuple_2.2.2
  { gene := tuple_1.1
    gem := tuple_2.1
    cpg_site_id := tuple_2.2.1
    correlation := some r.1
    p_value := some r.2
    adjusted_p_value := none }

/-- `cartesian_all_vs_all` of `analysis.rs`. -/
def cartesian_all_vs_all (correlate : List FP → List FP → FP × FP)
    (tuple_1 tuple_2 : TupleExpressionValues) : CorResult :=
  get_correlation_result correlate tuple_1 tuple_2

/-- `cartesian_equal_genes` of `analysis.rs`: a real correlation only for
exactly equal primary labels, a null placeholder otherwise. -/
def cartesian_equal_genes (correlate : List FP → List FP → FP × FP)
    (tuple_1 tuple_2 : TupleExpressionValues) : CorResult :=
  if tuple_1.1 = tuple_2.1 then get_correlation_result correlate tuple_1 tuple_2
  else
    { gene := tuple_1.1
      gem := tuple_2.1
      cpg_site_id := tuple_2.2.1
      correlation := none
      p_value := none
      adjusted_p_value := none }

/-- `ConstantInputError::p_value_is_nan`: `cor_result.p_value.unwrap().is_nan()`.
The `unwrap` is only reached on records whose `p_value` is `Some` (`&&`
short-circuit / all-vs-all construction); the `getD nan` default marks the
unreachable panic. -/
def pIsNaN (r : CorResult) : Bool := (r.p_value.getD .nan).isNaN

/-- `CorResult::abs_correlation`, with the unreachable `unwrap` panic
marked by the `getD nan` default. -/
def absCorrelation (r : CorResult) : FP := (r.correlation.getD .nan).abs

/-- The configuration fields of the `Analysis` struct that `run_analysis`
reads.  The file paths, `gem_contains_cpg` and `collect_gem_dataset` are
consumed by `compute`/`datasets_and_shapes` below; `correlation_method`
holds the already-constructed strategy object (the Rust code builds it from
the method enum and `number_of_samples` via `get_correlation_method`);
`sort_buf_size` only tunes the external sorter, whose output is its sorted
stream (claim C5). -/
structure Analysis where
  correlation_method : List FP → List FP → FP × FP
  correlation_threshold : FP
  adjustment_method : AdjustmentMethod
  is_all_vs_all : Bool
  keep_top_n : Option ℕ

/-- The parallel cartesian product of `run_analysis`: for each row of
dataset 1, every row of dataset 2, in order. -/
def corPairs (a : Analysis) (d1 d2 : List TupleExpressionValues) : List CorResult :=
  d1.flatMap fun x => d2.map fun y =>
    (if a.is_all_vs_all then cartesian_all_vs_all else cartesian_equal_genes)
      a.correlation_method x y

/-- The `filtered` stage of `run_analysis`: NaN p-values are dropped, and in
matching-only mode any record whose labels differ. -/
def filteredStage (a : Analysis) (d1 d2 : List TupleExpressionValues) : List CorResult :=
  if a.is_all_vs_all then (corPairs a d1 d2).filter (fun r => !pIsNaN r)
  else (corPairs a d1 d2).filter (fun r => r.gene == r.gem && !pIsNaN r)

/-- The `sorted` stage: Bonferroni passes the stream through; BH/BY sort by
p-value descending through the external sorter (claim C5: its output is the
sorted stream, modelled by `mergeSort` under the comparator
`r2.p_value.partial_cmp(r1.p_value).unwrap()`). -/
def sortedStage (a : Analysis) (d1 d2 : List TupleExpressionValues) : List CorResult :=
  match a.adjustment_method with
  | .Bonferroni => filteredStage a d1 d2
  | _ => (filteredStage a d1 d2).mergeSort
      (fun r1 r2 => FP.leT (r2.p_value.getD .nan) (r1.p_value.getD .nan))

/-- The rank-enumerated adjustment map of `run_analysis`. -/
def adjustList (st : AdjustmentState) (rank : ℕ) : List CorResult → List CorResult
  | [] => []
  | r :: rest =>
      let q := adjStep st (r.p_value.getD .nan) rank
      { r with adjusted_p_value := some q.1 } :: adjustList q.2 (rank + 1) rest

/-- The `adjusted` stage: ranks `0..` over the sorted stream, with N = the
number of evaluated (filtered) combinations. -/
def adjustedStage (a : Analysis) (d1 d2 : List TupleExpressionValues) : List CorResult :=
  adjustList (get_adjustment_method a.adjustment_method (filteredStage a d1 d2).length) 0
    (sortedStage a d1 d2)

/-- The threshold filter: keep `abs_correlation() >= correlation_threshold`
(IEEE `>=`, hence false whenever the correlation is NaN). -/
def thresholdStage (a : Analysis) (d1 d2 : List TupleExpressionValues) : List CorResult :=
  (adjustedStage a d1 d2).filter
    (fun r => a.correlation_threshold.leb (absCorrelation r))

/-- `Analysis::run_analysis`: returns
`(results, total_combinations_count, number_of_evaluated_combinations)`.
`number_of_samples` is consumed by the strategy construction abstracted
into `Analysis.correlation_method`; `_should_collect_gem_dataset` is unused,
exactly as in the Rust source. -/
def run_analysis (a : Analysis) (d1 d2 : List TupleExpressionValues)
    (number_of_samples : ℕ) (should_collect_gem_dataset : Bool) :
    List CorResult × ℕ × ℕ :=
  let number_of_evaluated_combinations := (filteredStage a d1 d2).length
  match a.keep_top_n with
  | some top_n =>
      let sorted_cor_desc := (thresholdStage a d1 d2).mergeSort
        (fun r1 r2 => FP.leT (absCorrelation r2) (absCorrelation r1))
      (sorted_cor_desc.take top_n, (thresholdStage a d1 d2).length,
        number_of_evaluated_combinations)
  | none =>
      (thresholdStage a d1 d2, number_of_evaluated_combinations,
        number_of_evaluated_combinations)

/-- The typed errors raised by validation (`create_exception!` classes; the
message payloads are omitted). -/
inductive GgcaErr where
  | GGCAError
  | GGCADiffSamplesLength
  | GGCADiffSamples
deriving DecidableEq, Repr

/-- The `Dataset` struct of `dataset.rs`: the parsed headers and the parsed
rows (the lazy matrix, re-readable at will; `Dataset::new` on the same path
yields the same value). -/
structure Dataset where
  headers : List String
  lazy_matrix : List TupleExpressionValues

/-- `Analysis::datasets_and_shapes`: checks the first data row of the
primary dataset exists, removes the CpG Site IDs column (index 1) from B's
headers when `gem_contains_cpg`, compares header lengths, then removes the
index column (index 0) from both and compares contents.  `Vec::remove`
panics when the index is out of range; a panic is modelled as `none`.
`remove(1)` on B's headers panics when they hold fewer than 2 entries;
`remove(0)` in the content-comparison branch panics when the primary
headers are empty (there both lists have the same length, so the primary
`remove(0)` panics first). -/
def datasets_and_shapes (dataset_1 matrix_2 : Dataset) (gem_contains_cpg : Bool) :
    Option (Except GgcaErr (Dataset × Dataset × ℕ)) :=
  match dataset_1.lazy_matrix.head? with
  | none => some (.error .GGCAError)
  | some row =>
      let number_of_samples := row.2.2.length
      if gem_contains_cpg = true ∧ matrix_2.headers.length < 2 then none
      else
        let m2_headers_to_compare :=
          if gem_contains_cpg then matrix_2.headers.eraseIdx 1 else matrix_2.headers
        if dataset_1.headers.length ≠ m2_headers_to_compare.length then
          some (.error .GGCADiffSamplesLength)
        else if dataset_1.headers.length = 0 then none
        else if dataset_1.headers.eraseIdx 0 ≠ m2_headers_to_compare.eraseIdx 0 then
          some (.error .GGCADiffSamples)
        else some (.ok (dataset_1, matrix_2, number_of_samples))

/-- `Analysis::compute`: validate shapes, then run the analysis.
`should_collect_gem_dataset` abstracts the `collect_gem_dataset` flag (or
its file-size heuristic when `None`); `run_analysis` ignores it.  A panic
inside `datasets_and_shapes` (`none`) propagates. -/
def compute (a : Analysis) (dataset_1 matrix_2 : Dataset) (gem_contains_cpg : Bool)
    (should_collect_gem_dataset : Bool) :
    Option (Except GgcaErr (List CorResult × ℕ × ℕ)) :=
  (datasets_and_shapes dataset_1 matrix_2 gem_contains_cpg).map (Except.map fun r =>
    run_analysis a r.1.lazy_matrix r.2.1.lazy_matrix r.2.2 should_collect_gem_dataset)

/-! ### Stage lemmas for the pipeline claims -/

theorem mem_corPairs {a : Analysis} {d1 d2 : List TupleExpressionValues} {r : CorResult}
    (h : r ∈ corPairs a d1 d2) :
    ∃ x ∈ d1, ∃ y ∈ d2,
      r = (if a.is_all_vs_all then cartesian_all_vs_all else cartesian_equal_genes)
        a.correlation_method x y := by
  unfold corPairs at h
  rw [List.mem_flatMap] at h
  obtain ⟨x, hx, hr⟩ := h
  rw [List.mem_map] at hr
  obtain ⟨y, hy, hr⟩ := hr
  exact ⟨x, hx, y, hy, hr.symm⟩

theorem filteredStage_mem {a : Analysis} {d1 d2 : List TupleExpressionValues}
    {r : CorResult} (h : r ∈ filteredStage a d1 d2) :
    r.correlation.isSome = true ∧ r.p_value.isSome = true ∧ pIsNaN r = false := by
  unfold filteredStage at h
  by_cases hall : a.is_all_vs_all = true
  · rw [if_pos hall] at h
    obtain ⟨hmem, hpred⟩ := List.mem_filter.mp h
    obtain ⟨x, _, y, _, hr⟩ := mem_corPairs hmem
    rw [hall] at hr
    simp only [if_pos] at hr
    subst hr
    refine ⟨rfl, rfl, ?_⟩
    simpa using hpred
  · rw [if_neg hall] at h
    obtain ⟨hmem, hpred⟩ := List.mem_filter.mp h
    rw [Bool.and_eq_true] at hpred
    obtain ⟨heq, hnan⟩ := hpred
    obtain ⟨x, _, y, _, hr⟩ := mem_corPairs hmem
    rw [if_neg hall] at hr
    by_cases hxy : x.1 = y.1
    · rw [hr, cartesian_equal_genes, if_pos hxy]
      refine ⟨rfl, rfl, ?_⟩
      rw [hr, cartesian_equal_genes, if_pos hxy] at hnan
      simpa using hnan
    · exfalso
      rw [hr, cartesian_equal_genes, if_neg hxy] at heq
      simp at heq
      exact hxy heq

theorem filteredStage_eq_genes {a : Analysis} {d1 d2 : List TupleExpressionValues}
    (hall : a.is_all_vs_all = false) :
    ∀ r ∈ filteredStage a d1 d2, r.gene = r.gem := by
  intro r h
  unfold filteredStage at h
  rw [hall] at h
  simp only [Bool.false_eq_true, if_false] at h
  obtain ⟨_, hpred⟩ := List.mem_filter.mp h
  rw [Bool.and_eq_true] at hpred
  simpa using hpred.1

theorem sortedStage_perm (a : Analysis) (d1 d2 : List TupleExpressionValues) :
    List.Perm (sortedStage a d1 d2) (filteredStage a d1 d2) := by
  cases ha : a.adjustment_method <;> simp only [sortedStage, ha]
  · exact List.mergeSort_perm _ _
  · exact List.mergeSort_perm _ _
  · exact List.Perm.refl _

theorem adjustList_mem :
    ∀ {l : List CorResult} {st : AdjustmentState} {k : ℕ} {r' : CorResult},
      r' ∈ adjustList st k l →
      ∃ r ∈ l, ∃ q : FP, r' = { r with adjusted_p_value := some q } := by
  intro l
  induction l with
  | nil => intro st k r' h; simp [adjustList] at h
  | cons r rest ih =>
      intro st k r' h
      rw [adjustList, List.mem_cons] at h
      rcases h with h | h
      · exact ⟨r, List.mem_cons_self _ _, _, h⟩
      · obtain ⟨r0, hr0, q, hq⟩ := ih h
        exact ⟨r0, List.mem_cons_of_mem _ hr0, q, hq⟩

theorem mem_thresholdStage {a : Analysis} {d1 d2 : List TupleExpressionValues}
    {r : CorResult} (h : r ∈ thresholdStage a d1 d2) :
    (∃ r0 ∈ filteredStage a d1 d2, ∃ q : FP,
        r = { r0 with adjusted_p_value := some q })
    ∧ (a.correlation_threshold.leb (absCorrelation r)) = true := by
  unfold thresholdStage at h
  obtain ⟨hmem, hpred⟩ := List.mem_filter.mp h
  unfold adjustedStage at hmem
  obtain ⟨r0, hr0, q, hq⟩ := adjustList_mem hmem
  exact ⟨⟨r0, (sortedStage_perm a d1 d2).mem_iff.mp hr0, q, hq⟩, hpred⟩

theorem mem_run_analysis_result {a : Analysis} {d1 d2 : List TupleExpressionValues}
    {ns : ℕ} {b : Bool} {r : CorResult} (h : r ∈ (run_analysis a d1 d2 ns b).1) :
    r ∈ thresholdStage a d1 d2 := by
  unfold run_analysis at h
  rcases hk : a.keep_top_n with _ | n <;> rw [hk] at h
  · exact h
  · simp only at h
    have hM := (List.take_sublist n _).subset h
    exact (List.mergeSort_perm (thresholdStage a d1 d2) _).mem_iff.mp hM

theorem run_analysis_evaluated_count (a : Analysis) (d1 d2 : List TupleExpressionValues)
    (ns : ℕ) (b : Bool) :
    (run_analysis a d1 d2 ns b).2.2 = (filteredStage a d1 d2).length := by
  unfold run_analysis
  rcases hk : a.keep_top_n with _ | n <;> simp

theorem countP_flatMap {β γ : Type} (p : γ → Bool) (f : β → List γ) :
    ∀ l : List β, (l.flatMap f).countP p = (l.map fun x => (f x).countP p).sum := by
  intro l
  induction l with
  | nil => rfl
  | cons x xs ih => simp [List.flatMap_cons, List.countP_append, ih]

/-! ### Concrete fixtures used by witnesses and counterexamples -/

/-- A constant correlation strategy, for concrete pipeline runs. -/
def constCorrelate (s p : FP) : List FP → List FP → FP × FP := fun _ _ => (s, p)

def rowA : TupleExpressionValues := ("a", none, [])

def rowB : TupleExpressionValues := ("b", none, [])

/-- Threshold 1 discards the constant statistic 0, keep_top_n is None. -/
def cfgThreshold : Analysis :=
  { correlation_method := constCorrelate (.fin 0) (.fin 1)
    correlation_threshold := .fin 1
    adjustment_method := .Bonferroni
    is_all_vs_all := true
    keep_top_n := none }

/-- Threshold 0 keeps the constant statistic 1, keep_top_n is None. -/
def cfgKeepAll : Analysis :=
  { correlation_method := constCorrelate (.fin 1) (.fin 1)
    correlation_threshold := .fin 0
    adjustment_method := .Bonferroni
    is_all_vs_all := true
    keep_top_n := none }

/-- Like `cfgKeepAll` but truncating to the single best record. -/
def cfgTopOne : Analysis :=
  { correlation_method := constCorrelate (.fin 1) (.fin 1)
    correlation_threshold := .fin 0
    adjustment_method := .Bonferroni
    is_all_vs_all := true
    keep_top_n := some 1 }

/-- Matching-only Pearson run over three samples. -/
def cfgPearsonMatch : Analysis :=
  { correlation_method := (Pearson.new 3).correlate
    correlation_threshold := .fin 0
    adjustment_method := .Bonferroni
    is_all_vs_all := false
    keep_top_n := none }

/-- A constant-valued row: its Pearson correlation against anything is NaN. -/
def rowConst : TupleExpressionValues := ("g1", none, [.fin 1, .fin 1, .fin 1])

def rowVar : TupleExpressionValues := ("g1", none, [.fin 1, .fin 2, .fin 3])

/-- The record produced by a `cfgKeepAll` run over `[rowA]`, `[rowB]`. -/
def recW : CorResult :=
  { gene := "a"
    gem := "b"
    cpg_site_id := none
    correlation := some (.fin 1)
    p_value := some (.fin 1)
    adjusted_p_value := some (.fin 1) }

/-! ### C2 -/

/-- C2 counterexample: one evaluated pair whose |statistic| = 0 falls below
the threshold 1, so zero records survive the threshold filter, yet with
`keep_top_n = None` the returned `count_before_truncation` is 1 (the
evaluated-combinations count), not the filtered count 0. -/
theorem claim_C2_cx :
    (run_analysis cfgThreshold [rowA] [rowB] 0 true).2.1 = 1
    ∧ (thresholdStage cfgThreshold [rowA] [rowB]).length = 0 := by
  constructor <;>
    norm_num [run_analysis, thresholdStage, adjustedStage, sortedStage, filteredStage,
      corPairs, cartesian_all_vs_all, get_correlation_result, constCorrelate,
      rowA, rowB, cfgThreshold, pIsNaN, absCorrelation, adjustList, adjStep,
      get_adjustment_method, FP.mul, FP.min, FP.isNaN, FP.leb, FP.abs]

/-- C2 (amended): when `keep_top_n` is None, `run_analysis` returns the
threshold-filtered stream unchanged (no second sort), and the returned
`count_before_truncation` equals the evaluated-combinations count (the
number of records surviving the NaN/matching filter, before the threshold
filter) — not the threshold-surviving count. -/
theorem claim_C2_no_top_n (a : Analysis) (d1 d2 : List TupleExpressionValues)
    (ns : ℕ) (b : Bool) (h : a.keep_top_n = none) :
    (run_analysis a d1 d2 ns b).1 = thresholdStage a d1 d2
    ∧ (run_analysis a d1 d2 ns b).2.1 = (filteredStage a d1 d2).length
    ∧ (run_analysis a d1 d2 ns b).2.2 = (filteredStage a d1 d2).length := by
  unfold run_analysis
  rw [h]
  exact ⟨rfl, rfl, rfl⟩

theorem claim_C2_no_top_n_witness :
    (run_analysis cfgThreshold [rowA] [rowB] 0 true).1 =
        thresholdStage cfgThreshold [rowA] [rowB]
    ∧ (run_analysis cfgThreshold [rowA] [rowB] 0 true).2.1 =
        (filteredStage cfgThreshold [rowA] [rowB]).length
    ∧ (run_analysis cfgThreshold [rowA] [rowB] 0 true).2.2 =
        (filteredStage cfgThreshold [rowA] [rowB]).length :=
  claim_C2_no_top_n cfgThreshold [rowA] [rowB] 0 true rfl

/-! ### C9 -/

/-- C9: the triple returned by `run_analysis` (and by `compute`) does not
depend on the materialize-second-dataset flag: the parameter is unused. -/
theorem claim_C9_collect_flag_irrelevant (a : Analysis)
    (d1 d2 : List TupleExpressionValues) (ns : ℕ) (D1 D2 : Dataset)
    (cpg b1 b2 : Bool) :
    run_analysis a d1 d2 ns b1 = run_analysis a d1 d2 ns b2
    ∧ compute a D1 D2 cpg b1 = compute a D1 D2 cpg b2 :=
  ⟨rfl, rfl⟩

/-! ### C10 -/

/-- C10: every record returned by `run_analysis` has non-null correlation,
p-value and adjusted p-value, and its p-value is not NaN. -/
theorem claim_C10_result_fields (a : Analysis) (d1 d2 : List TupleExpressionValues)
    (ns : ℕ) (b : Bool) (r : CorResult) (h : r ∈ (run_analysis a d1 d2 ns b).1) :
    r.correlation.isSome = true ∧ r.p_value.isSome = true
    ∧ r.adjusted_p_value.isSome = true ∧ pIsNaN r = false := by
  have ht := mem_run_analysis_result h
  obtain ⟨⟨r0, hr0, q, rfl⟩, _⟩ := mem_thresholdStage ht
  obtain ⟨hc, hp, hn⟩ := filteredStage_mem hr0
  exact ⟨hc, hp, rfl, hn⟩

theorem claim_C10_result_fields_witness :
    recW.correlation.isSome = true ∧ recW.p_value.isSome = true
    ∧ recW.adjusted_p_value.isSome = true ∧ pIsNaN recW = false :=
  claim_C10_result_fields cfgKeepAll [rowA] [rowB] 0 true recW (by
    norm_num [run_analysis, thresholdStage, adjustedStage, sortedStage, filteredStage,
      corPairs, cartesian_all_vs_all, get_correlation_result, constCorrelate,
      rowA, rowB, cfgKeepAll, recW, pIsNaN, absCorrelation, adjustList, adjStep,
      get_adjustment_method, FP.mul, FP.min, FP.isNaN, FP.leb, FP.abs])

/-! ### C6 -/

/-- C6 counterexample: in matching-only mode, one pair with exactly equal
primary labels but a constant input row gives a NaN p-value, so
`N_evaluated` is 0 while the number of exactly-matching pairs is 1: the
NaN-filtered matches are excluded from the count too. -/
theorem claim_C6_cx :
    (run_analysis cfgPearsonMatch [rowConst] [rowVar] 3 true).2.2 = 0
    ∧ ([rowConst].flatMap fun x => [rowVar].map (Prod.mk x)).countP
        (fun p => p.1.1 == p.2.1) = 1 := by
  constructor
  · rw [run_analysis_evaluated_count]
    norm_num [filteredStage, corPairs, cartesian_equal_genes, get_correlation_result,
      cfgPearsonMatch, rowConst, rowVar, pIsNaN,
      Pearson.correlate, Pearson.statistic, Pearson.new, pearson_correlation,
      FP.add, FP.sub, FP.neg, FP.mul, FP.div, FP.isNaN,
      FP.sqrt, FP.ratSqrt_zero, FP.ratSqrt_one]
  · norm_num [rowConst, rowVar]

/-- C6 (amended): with `is_all_vs_all = false`, non-matching pairs yield
null statistic and p-value; every record reaching the post-filter stages
(and the output) has equal labels; and `N_evaluated` equals the number of
row pairs with exactly equal primary labels **and** a non-NaN p-value
(NaN-degenerate matches are excluded by the NaN filter). -/
theorem claim_C6_matching_only (a : Analysis) (d1 d2 : List TupleExpressionValues)
    (ns : ℕ) (b : Bool) (hall : a.is_all_vs_all = false) :
    (∀ t1 t2 : TupleExpressionValues, t1.1 ≠ t2.1 →
      (cartesian_equal_genes a.correlation_method t1 t2).correlation = none
      ∧ (cartesian_equal_genes a.correlation_method t1 t2).p_value = none)
    ∧ (∀ r ∈ filteredStage a d1 d2, r.gene = r.gem)
    ∧ (∀ r ∈ (run_analysis a d1 d2 ns b).1, r.gene = r.gem)
    ∧ (run_analysis a d1 d2 ns b).2.2 =
        (d1.flatMap fun x => d2.map (Prod.mk x)).countP
          (fun p => p.1.1 == p.2.1
            && !(a.correlation_method p.1.2.2 p.2.2.2).2.isNaN) := by
  refine ⟨?_, filteredStage_eq_genes hall, ?_, ?_⟩
  · intro t1 t2 hne
    rw [cartesian_equal_genes, if_neg hne]
    exact ⟨rfl, rfl⟩
  · intro r h
    obtain ⟨⟨r0, hr0, q, rfl⟩, _⟩ := mem_thresholdStage (mem_run_analysis_result h)
    exact filteredStage_eq_genes hall r0 hr0
  · rw [run_analysis_evaluated_count]
    unfold filteredStage
    rw [hall]
    simp only [Bool.false_eq_true, if_false]
    rw [← List.countP_eq_length_filter]
    unfold corPairs
    rw [hall]
    simp only [Bool.false_eq_true, if_false]
    rw [countP_flatMap, countP_flatMap]
    congr 1
    refine List.map_congr_left fun x _ => ?_
    rw [List.countP_map, List.countP_map]
    refine List.countP_congr fun y _ => ?_
    show ((cartesian_equal_genes a.correlation_method x y).gene ==
        (cartesian_equal_genes a.correlation_method x y).gem
        && !pIsNaN (cartesian_equal_genes a.correlation_method x y)) = true
      ↔ (x.1 == y.1 && !(a.correlation_method x.2.2 y.2.2).2.isNaN) = true
    by_cases hxy : x.1 = y.1
    · rw [cartesian_equal_genes, if_pos hxy]
      simp [get_correlation_result, pIsNaN, hxy]
    · rw [cartesian_equal_genes, if_neg hxy]
      simp [pIsNaN, hxy]

theorem claim_C6_matching_only_witness :
    (∀ t1 t2 : TupleExpressionValues, t1.1 ≠ t2.1 →
      (cartesian_equal_genes cfgPearsonMatch.correlation_method t1 t2).correlation = none
      ∧ (cartesian_equal_genes cfgPearsonMatch.correlation_method t1 t2).p_value = none)
    ∧ (∀ r ∈ filteredStage cfgPearsonMatch [rowConst] [rowVar], r.gene = r.gem)
    ∧ (∀ r ∈ (run_analysis cfgPearsonMatch [rowConst] [rowVar] 3 true).1, r.gene = r.gem)
    ∧ (run_analysis cfgPearsonMatch [rowConst] [rowVar] 3 true).2.2 =
        ([rowConst].flatMap fun x => [rowVar].map (Prod.mk x)).countP
          (fun p => p.1.1 == p.2.1
            && !(cfgPearsonMatch.correlation_method p.1.2.2 p.2.2.2).2.isNaN) :=
  claim_C6_matching_only cfgPearsonMatch [rowConst] [rowVar] 3 true rfl

/-! ### C7 -/

/-- C7: with `keep_top_n = Some n`, `count_before_truncation` is the
threshold-surviving count, the result is the first `n` of those records
sorted by |statistic| descending (so its length is `min n count`), it is
ordered by |statistic| descending, and together with the dropped records it
is a permutation of the surviving set with every kept |statistic| at least
every dropped one. -/
theorem claim_C7_top_n (a : Analysis) (d1 d2 : List TupleExpressionValues)
    (ns : ℕ) (b : Bool) (n : ℕ) (h : a.keep_top_n = some n) :
    (run_analysis a d1 d2 ns b).2.1 = (thresholdStage a d1 d2).length
    ∧ (run_analysis a d1 d2 ns b).1 =
        ((thresholdStage a d1 d2).mergeSort
          (fun r1 r2 => FP.leT (absCorrelation r2) (absCorrelation r1))).take n
    ∧ (run_analysis a d1 d2 ns b).1.length = min n (thresholdStage a d1 d2).length
    ∧ List.Pairwise (fun r1 r2 => FP.leT (absCorrelation r2) (absCorrelation r1) = true)
        (run_analysis a d1 d2 ns b).1
    ∧ List.Perm
        ((run_analysis a d1 d2 ns b).1 ++
          ((thresholdStage a d1 d2).mergeSort
            (fun r1 r2 => FP.leT (absCorrelation r2) (absCorrelation r1))).drop n)
        (thresholdStage a d1 d2)
    ∧ ∀ r1 ∈ (run_analysis a d1 d2 ns b).1,
        ∀ r2 ∈ ((thresholdStage a d1 d2).mergeSort
            (fun r1 r2 => FP.leT (absCorrelation r2) (absCorrelation r1))).drop n,
          FP.leT (absCorrelation r2) (absCorrelation r1) = true := by
  have h1 : (run_analysis a d1 d2 ns b).1 =
      ((thresholdStage a d1 d2).mergeSort
        (fun r1 r2 => FP.leT (absCorrelation r2) (absCorrelation r1))).take n := by
    unfold run_analysis
    rw [h]
  have h21 : (run_analysis a d1 d2 ns b).2.1 = (thresholdStage a d1 d2).length := by
    unfold run_analysis
    rw [h]
  have hsorted : List.Pairwise
      (fun r1 r2 => (fun r1 r2 => FP.leT (absCorrelation r2) (absCorrelation r1)) r1 r2 = true)
      ((thresholdStage a d1 d2).mergeSort
        (fun r1 r2 => FP.leT (absCorrelation r2) (absCorrelation r1))) :=
    @List.sorted_mergeSort CorResult
      (fun r1 r2 => FP.leT (absCorrelation r2) (absCorrelation r1))
      (fun x y z hxy hyz => FP.leT_trans hyz hxy)
      (fun x y => by
        rcases FP.leT_total (absCorrelation y) (absCorrelation x) with hxy | hxy <;>
          simp [hxy])
      (thresholdStage a d1 d2)
  have hsplit : List.Pairwise
      (fun r1 r2 => FP.leT (absCorrelation r2) (absCorrelation r1) = true)
      (((thresholdStage a d1 d2).mergeSort
          (fun r1 r2 => FP.leT (absCorrelation r2) (absCorrelation r1))).take n ++
        ((thresholdStage a d1 d2).mergeSort
          (fun r1 r2 => FP.leT (absCorrelation r2) (absCorrelation r1))).drop n) := by
    rw [List.take_append_drop]
    exact hsorted
  obtain ⟨hp1, _, hcross⟩ := List.pairwise_append.mp hsplit
  refine ⟨h21, h1, ?_, ?_, ?_, ?_⟩
  · rw [h1, List.length_take, List.length_mergeSort]
  · rw [h1]
    exact hp1
  · rw [h1, List.take_append_drop]
    exact List.mergeSort_perm _ _
  · intro r1 hr1 r2 hr2
    rw [h1] at hr1
    exact hcross r1 hr1 r2 hr2

theorem claim_C7_top_n_witness :
    (run_analysis cfgTopOne [rowA] [rowB] 0 true).2.1 =
      (thresholdStage cfgTopOne [rowA] [rowB]).length :=
  (claim_C7_top_n cfgTopOne [rowA] [rowB] 0 true 1 rfl).1

/-! ### C8 -/

/-- A primary dataset with a two-column header and one data row. -/
def dsRowed : Dataset := ⟨["idx", "s1"], [rowA]⟩

/-- A secondary dataset whose header has a single column: with
`gem_contains_cpg` set, `remove(1)` on it is out of range. -/
def dsOneCol : Dataset := ⟨["x"], []⟩

/-- Counterexample to C8 as stated: with `gem_contains_cpg` set and a
one-column header in the secondary dataset, the processed sample-header
lists differ (in length and in content), yet `compute` panics at
`m2_headers_to_compare.remove(1)` — modelled as `none` — instead of
returning a typed error. -/
theorem claim_C8_cx :
    dsRowed.headers.eraseIdx 0 ≠ ((dsOneCol.headers.eraseIdx 1).eraseIdx 0)
    ∧ compute cfgKeepAll dsRowed dsOneCol true true = none := by
  constructor
  · simp [dsRowed, dsOneCol]
  · rfl

/-- C8 (amended): provided B's header holds at least two entries whenever
`gem_contains_cpg` is set (so that the CpG-column `remove(1)` is in range),
`compute` raises a typed error — producing no result — whenever the primary
dataset has no data row, or the two sample-header lists (after removing B's
CpG Site IDs column if present, and the index column from both) differ;
the `remove(0)` panic on empty headers is unreachable under either
validation condition. -/
theorem claim_C8_validation_errors (a : Analysis) (D1 D2 : Dataset) (cpg b : Bool)
    (hsafe : cpg = true → 2 ≤ D2.headers.length)
    (h : D1.lazy_matrix = []
      ∨ D1.headers.eraseIdx 0 ≠
          ((if cpg then D2.headers.eraseIdx 1 else D2.headers).eraseIdx 0)) :
    ∃ e : GgcaErr, compute a D1 D2 cpg b = some (.error e) := by
  have hval : ∃ e : GgcaErr,
      datasets_and_shapes D1 D2 cpg = some (.error e) := by
    unfold datasets_and_shapes
    rcases h with h | h
    · rw [h]
      exact ⟨.GGCAError, rfl⟩
    · rcases hrow : D1.lazy_matrix.head? with _ | row
      · exact ⟨.GGCAError, rfl⟩
      · have hnp : ¬(cpg = true ∧ D2.headers.length < 2) := by
          rintro ⟨hc, hl⟩
          exact absurd (hsafe hc) (by omega)
        by_cases hlen : D1.headers.length =
          (if cpg then D2.headers.eraseIdx 1 else D2.headers).length
        · have hne : D1.headers.length ≠ 0 := by
            intro h0
            rw [List.eraseIdx_zero, List.eraseIdx_zero] at h
            apply h
            rw [List.length_eq_zero] at h0
            rw [h0] at hlen
            have h2 := List.length_eq_zero.mp hlen.symm
            rw [h0, h2]
          have hne2 : (if cpg = true then D2.headers.eraseIdx 1 else D2.headers) ≠ [] := by
            intro h0
            rw [h0] at hlen
            simp at hlen
            exact hne (by rw [hlen]; rfl)
          refine ⟨.GGCADiffSamples, ?_⟩
          rw [List.eraseIdx_zero, List.eraseIdx_zero] at h
          simp [hnp, hlen, hne, hne2, h]
        · exact ⟨.GGCADiffSamplesLength, by simp [hnp, hlen]⟩
  obtain ⟨e, he⟩ := hval
  refine ⟨e, ?_⟩
  unfold compute
  rw [he]
  rfl

/-- A dataset with a header but no data rows. -/
def dsEmpty : Dataset := ⟨["idx", "s1"], []⟩

theorem claim_C8_validation_errors_witness :
    ∃ e : GgcaErr, compute cfgKeepAll dsEmpty dsEmpty false true = some (.error e) :=
  claim_C8_validation_errors cfgKeepAll dsEmpty dsEmpty false true
    (fun hc => absurd hc (by simp)) (Or.inl rfl)

/-! ### correlation.rs: tau_b_with_comparator

The Kendall statistic works on `(f64, f64)` pairs; the claims concern
real-valued inputs, modelled as exact rationals (on NaN-free inputs
`pairs_comparator`'s `unwrap_or(Greater)` never fires, and `==` is rational
equality). -/

/-- A zipped `(x, y)` pair. -/
abbrev KPair := ℚ × ℚ

/-- The lexicographic order realised by the `par_sort_by` comparator
(`pairs_comparator` on the first components, ties broken by the second). -/
def lexLe (p q : KPair) : Bool := if p.1 = q.1 then p.2 ≤ q.2 else p.1 < q.1

/-- `sum(n) = n (n+1) / 2` of `correlation.rs`. -/
def ksum (n : ℕ) : ℕ := n * (n + 1) / 2

/-- The accumulators of the first (x-run) walk. -/
structure XStats where
  v1_part_1 : ℕ
  v2_part_1 : ℤ
  tied_x_pairs : ℕ
  tied_xy_pairs : ℕ
  vt : ℕ
deriving DecidableEq, Repr

def XStats.init : XStats := ⟨0, 0, 0, 0, 0⟩

/-- `update_x_group`. -/
def update_x_group (st : XStats) (consecutive_x_ties consecutive_xy_ties : ℕ) : XStats :=
  { st with
    vt := st.vt + consecutive_x_ties * (consecutive_x_ties - 1) * (2 * consecutive_x_ties + 5)
    v1_part_1 := st.v1_part_1 + consecutive_x_ties * (consecutive_x_ties - 1)
    v2_part_1 := st.v2_part_1 +
      (consecutive_x_ties : ℤ) * ((consecutive_x_ties : ℤ) - 1) * ((consecutive_x_ties : ℤ) - 2)
    tied_x_pairs := st.tied_x_pairs + ksum (consecutive_x_ties - 1)
    tied_xy_pairs := st.tied_xy_pairs + ksum (consecutive_xy_ties - 1) }

/-- The loop `for i in 1..n` over the lex-sorted pairs, walking runs of
tied x (and, inside them, runs of tied (x, y)). -/
def xWalk (st : XStats) (prev : KPair) (consecutive_x_ties consecutive_xy_ties : ℕ) :
    List KPair → XStats
  | [] => update_x_group st consecutive_x_ties consecutive_xy_ties
  | curr :: rest =>
      if curr.1 = prev.1 then
        if curr.2 = prev.2 then xWalk st curr (consecutive_x_ties + 1) (consecutive_xy_ties + 1) rest
        else xWalk { st with tied_xy_pairs := st.tied_xy_pairs + ksum (consecutive_xy_ties - 1) }
          curr (consecutive_x_ties + 1) 1 rest
      else xWalk (update_x_group st consecutive_x_ties consecutive_xy_ties) curr 1 1 rest

/-- The x-run walk over the whole (lex-sorted) pair list, with the trailing
`update_x_group` call (which also runs for an empty input, harmlessly). -/
def xScan : List KPair → XStats
  | [] => update_x_group XStats.init 1 1
  | p :: rest => xWalk XStats.init p 1 1 rest

/-- The accumulators of the second (y-run) walk. -/
structure YStats where
  v1_part_2 : ℕ
  v2_part_2 : ℤ
  tied_y_pairs : ℕ
  vu : ℕ
deriving DecidableEq, Repr

def YStats.init : YStats := ⟨0, 0, 0, 0⟩

/-- `update_y_group`. -/
def update_y_group (st : YStats) (consecutive_y_ties : ℕ) : YStats :=
  { st with
    vu := st.vu + consecutive_y_ties * (consecutive_y_ties - 1) * (2 * consecutive_y_ties + 5)
    v1_part_2 := st.v1_part_2 + consecutive_y_ties * (consecutive_y_ties - 1)
    v2_part_2 := st.v2_part_2 +
      (consecutive_y_ties : ℤ) * ((consecutive_y_ties : ℤ) - 1) * ((consecutive_y_ties : ℤ) - 2)
    tied_y_pairs := st.tied_y_pairs + ksum (consecutive_y_ties - 1) }

/-- The loop `for j in 1..n` over the y-sorted pairs. -/
def yWalk (st : YStats) (prev : KPair) (consecutive_y_ties : ℕ) : List KPair → YStats
  | [] => update_y_group st consecutive_y_ties
  | curr :: rest =>
      if curr.2 = prev.2 then yWalk st curr (consecutive_y_ties + 1) rest
      else yWalk (update_y_group st consecutive_y_ties) curr 1 rest

def yScan : List KPair → YStats
  | [] => update_y_group YStats.init 1
  | p :: rest => yWalk YStats.init p 1 rest

/-- The inner merge of the bottom-up merge sort by y: take from the right
run when its head is strictly smaller (`pairs_comparator == Greater`),
adding the number of remaining left elements (`i_end - i`) to the swap
count; otherwise take from the left run (stable). -/
def mergeCountRun : List KPair → List KPair → List KPair × ℕ
  | [], r => (r, 0)
  | l, [] => (l, 0)
  | a :: l', b :: r' =>
      if b.2 < a.2 then
        let m := mergeCountRun (a :: l') r'
        (b :: m.1, m.2 + (a :: l').length)
      else
        let m := mergeCountRun l' (b :: r')
        (a :: m.1, m.2)
termination_by l r => l.length + r.length
decreasing_by all_goals simp <;> omega

/-- One pass of the bottom-up merge sort: the `for offset in
(0..n).step_by(2 * segment_size)` loop, merging the two halves of each
`2 * segment_size` chunk.  (`segment_size = 0` would make the Rust
`step_by` panic; the loop only ever runs with positive sizes.) -/
def mergePass (s : ℕ) (l : List KPair) : List KPair × ℕ :=
  if h : l = [] ∨ s = 0 then (l, 0)
  else
    let chunk := l.take (2 * s)
    let rest := l.drop (2 * s)
    let m := mergeCountRun (chunk.take s) (chunk.drop s)
    have : rest.length < l.length := by
      rw [not_or] at h
      have hl : 0 < l.length := List.length_pos.mpr h.1
      have hs : s ≠ 0 := h.2
      rw [List.length_drop]
      omega
    let mr := mergePass s rest
    (m.1 ++ mr.1, m.2 + mr.2)
termination_by l.length

/-- The `while segment_size < n` loop doubling the segment size, summing
the swap counts of all passes. -/
def mergeLoop (n s : ℕ) (l : List KPair) : List KPair × ℕ :=
  if h : 0 < s ∧ s < n then
    let m := mergePass s l
    have : n - 2 * s < n - s := by omega
    let rest := mergeLoop n (2 * s) m.1
    (rest.1, m.2 + rest.2)
  else (l, 0)
termination_by n - s

/-- `tau_b_with_comparator`: lex-sort the zipped pairs, walk x-runs, merge
sort by y counting swaps, walk y-runs, and assemble the statistic and the
z-value.  The final floating-point assembly is in `FP` arithmetic (exact on
the integer counts, with IEEE division-by-zero and NaN propagation). -/
def tau_b_with_comparator (x y : List ℚ) : FP × FP :=
  let n := x.length
  let pairs := (x.zip y).mergeSort lexLe
  let xs := xScan pairs
  let sc := mergeLoop n 1 pairs
  let ys := yScan sc.1
  let swaps := sc.2
  let v1 : ℚ := ((xs.v1_part_1 * ys.v1_part_2 : ℕ) : ℚ)
  let v2 : ℚ := ((xs.v2_part_1 * ys.v2_part_2 : ℤ) : ℚ)
  let num_pairs_f : ℚ := ((n * (n - 1) : ℕ) : ℚ) / 2
  let tied_x_pairs_f : ℚ := (xs.tied_x_pairs : ℚ)
  let tied_y_pairs_f : ℚ := (ys.tied_y_pairs : ℚ)
  let tied_xy_pairs_f : ℚ := (xs.tied_xy_pairs : ℚ)
  let swaps_f : ℚ := ((2 * swaps : ℕ) : ℚ)
  let concordant_minus_discordant :=
    num_pairs_f - tied_x_pairs_f - tied_y_pairs_f + tied_xy_pairs_f - swaps_f
  let non_tied_pairs_multiplied :=
    (num_pairs_f - tied_x_pairs_f) * (num_pairs_f - tied_y_pairs_f)
  let tau_b := (FP.fin concordant_minus_discordant).div
    (FP.sqrt (FP.fin non_tied_pairs_multiplied))
  let v0 : ℤ := ((n * (n - 1) : ℕ) : ℤ) * ((2 * n + 5 : ℕ) : ℤ)
  let n_f : ℚ := (n : ℚ)
  let var_s : FP :=
    (((FP.fin (((v0 - (xs.vt : ℤ) - (ys.vu : ℤ) : ℤ)) : ℚ)).div (FP.fin 18)).add
      ((FP.fin v1).div (FP.fin (2 * n_f * (n_f - 1))))).add
      ((FP.fin v2).div (FP.fin (9 * n_f * (n_f - 1) * (n_f - 2))))
  let s := tau_b.mul (FP.sqrt (FP.fin non_tied_pairs_multiplied))
  let z := s.div (FP.sqrt var_s)
  (tau_b.clamp (FP.fin (-1)) (FP.fin 1), z)

/-! Reference (brute-force) pair counts for the tau-b claim. -/

/-- Count of unordered index pairs of the list satisfying `p`. -/
def pairCount (p : KPair → KPair → Bool) : List KPair → ℕ
  | [] => 0
  | a :: l => l.countP (p a) + pairCount p l

def concordantB (a b : KPair) : Bool := (a.1 < b.1 ∧ a.2 < b.2) ∨ (b.1 < a.1 ∧ b.2 < a.2)

def discordantB (a b : KPair) : Bool := (a.1 < b.1 ∧ b.2 < a.2) ∨ (b.1 < a.1 ∧ a.2 < b.2)

def tiedXB (a b : KPair) : Bool := a.1 = b.1

def tiedYB (a b : KPair) : Bool := a.2 = b.2

def tiedXYB (a b : KPair) : Bool := a.1 = b.1 ∧ a.2 = b.2

/-! Infrastructure for the tau-b proof. -/

/-- Sorted by y (the order of the swap-counting merge sort). -/
abbrev ySorted (l : List KPair) : Prop := List.Sorted (fun p q : KPair => p.2 ≤ q.2) l

/-- Sorted lexicographically (the order of the initial `par_sort_by`). -/
abbrev lexSorted (l : List KPair) : Prop := List.Sorted (fun p q => lexLe p q = true) l

theorem lexLe_total (p q : KPair) : (lexLe p q || lexLe q p) = true := by
  unfold lexLe
  by_cases h : p.1 = q.1
  · rw [if_pos h, if_pos h.symm]
    rcases le_total p.2 q.2 with h2 | h2 <;> simp [h2]
  · rw [if_neg h, if_neg (Ne.symm h)]
    rcases lt_or_gt_of_ne h with h1 | h1 <;> simp [h1]

theorem lexLe_trans {p q r : KPair} (h1 : lexLe p q = true) (h2 : lexLe q r = true) :
    lexLe p r = true := by
  unfold lexLe at *
  by_cases hpq : p.1 = q.1 <;> by_cases hqr : q.1 = r.1
  · rw [if_pos hpq] at h1
    rw [if_pos hqr] at h2
    rw [if_pos (hpq.trans hqr)]
    simp only [decide_eq_true_eq] at *
    exact le_trans h1 h2
  · rw [if_neg hqr] at h2
    rw [if_neg (fun hc => hqr (hpq.symm.trans hc))]
    simp only [decide_eq_true_eq] at *
    rw [hpq]
    exact h2
  · rw [if_neg hpq] at h1
    rw [if_neg (fun hc => hpq (hc.trans hqr.symm))]
    simp only [decide_eq_true_eq] at *
    rw [← hqr]
    exact h1
  · rw [if_neg hpq] at h1
    rw [if_neg hqr] at h2
    simp only [decide_eq_true_eq] at *
    have hpr : p.1 < r.1 := lt_trans h1 h2
    rw [if_neg (ne_of_lt hpr)]
    simp only [decide_eq_true_eq]
    exact hpr

/-- `pairCount` of a symmetric predicate is invariant under permutation. -/
theorem pairCount_perm {p : KPair → KPair → Bool} (hsymm : ∀ a b, p a b = p b a) :
    ∀ {l l' : List KPair}, List.Perm l l' → pairCount p l = pairCount p l' := by
  intro l l' h
  induction h with
  | nil => rfl
  | cons x h ih => simp [pairCount, h.countP_eq, ih]
  | swap x y l =>
      simp only [pairCount, List.countP_cons]
      rw [hsymm y x]
      omega
  | trans h1 h2 ih1 ih2 => exact ih1.trans ih2

/-- Inversions by y: ordered index pairs `i < j` with `y_i > y_j`. -/
def yInv : List KPair → ℕ
  | [] => 0
  | a :: l => l.countP (fun b => b.2 < a.2) + yInv l

/-- Cross inversions between two lists: pairs `(a, b) ∈ l × r` with
`a.2 > b.2`. -/
def yInvCount (l r : List KPair) : ℕ :=
  (l.map fun a => r.countP (fun b => b.2 < a.2)).sum

theorem yInvCount_nil_left (r : List KPair) : yInvCount [] r = 0 := rfl

theorem yInvCount_nil_right (l : List KPair) : yInvCount l [] = 0 := by
  unfold yInvCount
  induction l with
  | nil => rfl
  | cons a l ih => simpa using ih

theorem yInvCount_cons_left (a : KPair) (l r : List KPair) :
    yInvCount (a :: l) r = r.countP (fun b => b.2 < a.2) + yInvCount l r := by
  simp [yInvCount]

theorem yInvCount_cons_right (l : List KPair) (b : KPair) (r : List KPair) :
    yInvCount l (b :: r) = yInvCount l r + l.countP (fun a => b.2 < a.2) := by
  induction l with
  | nil => simp [yInvCount]
  | cons a l ih =>
      rw [yInvCount_cons_left, yInvCount_cons_left, ih, List.countP_cons, List.countP_cons]
      omega

theorem yInvCount_perm {A A' B B' : List KPair} (hA : List.Perm A A')
    (hB : List.Perm B B') : yInvCount A B = yInvCount A' B' := by
  unfold yInvCount
  have h1 : (A.map fun a => B.countP (fun b => b.2 < a.2)) =
      A.map fun a => B'.countP (fun b => b.2 < a.2) :=
    List.map_congr_left fun a _ => hB.countP_eq _
  rw [h1]
  exact (hA.map _).sum_eq

theorem yInv_append (A B : List KPair) :
    yInv (A ++ B) = yInv A + yInv B + yInvCount A B := by
  induction A with
  | nil => simp [yInv, yInvCount_nil_left]
  | cons a A ih =>
      rw [List.cons_append]
      show (A ++ B).countP (fun b => b.2 < a.2) + yInv (A ++ B) = _
      rw [List.countP_append, ih, yInvCount_cons_left]
      show _ = A.countP (fun b => b.2 < a.2) + yInv A + yInv B +
        (B.countP (fun b => b.2 < a.2) + yInvCount A B)
      omega

theorem yInv_eq_zero_of_sorted : ∀ {l : List KPair}, ySorted l → yInv l = 0 := by
  intro l h
  induction l with
  | nil => rfl
  | cons a l ih =>
      obtain ⟨h1, h2⟩ := List.sorted_cons.mp h
      show l.countP (fun b => b.2 < a.2) + yInv l = 0
      rw [ih h2, List.countP_eq_zero.mpr]
      intro b hb
      simpa using not_lt.mpr (h1 b hb)

theorem mergeCountRun_nil_left (r : List KPair) : mergeCountRun [] r = (r, 0) := by
  rw [mergeCountRun]

theorem mergeCountRun_nil_right (a : KPair) (l' : List KPair) :
    mergeCountRun (a :: l') [] = (a :: l', 0) := by
  rw [mergeCountRun]
  simp

theorem mergeCountRun_cons_lt {a b : KPair} (l' r' : List KPair) (h : b.2 < a.2) :
    mergeCountRun (a :: l') (b :: r') =
      (b :: (mergeCountRun (a :: l') r').1,
        (mergeCountRun (a :: l') r').2 + (a :: l').length) := by
  rw [mergeCountRun]
  simp [h]

theorem mergeCountRun_cons_ge {a b : KPair} (l' r' : List KPair) (h : ¬b.2 < a.2) :
    mergeCountRun (a :: l') (b :: r') =
      ((a :: (mergeCountRun l' (b :: r')).1), (mergeCountRun l' (b :: r')).2) := by
  rw [mergeCountRun]
  simp [h]

theorem mergeCountRun_spec :
    ∀ (N : ℕ) (l r : List KPair), l.length + r.length = N →
      List.Perm (mergeCountRun l r).1 (l ++ r)
      ∧ (ySorted l → ySorted r →
          ySorted (mergeCountRun l r).1
          ∧ (mergeCountRun l r).2 = yInvCount l r) := by
  intro N
  induction N using Nat.strong_induction_on with
  | _ N ih =>
      intro l r hN
      match l, r with
      | [], r =>
          rw [mergeCountRun_nil_left]
          exact ⟨by simp, fun _ hr => ⟨hr, (yInvCount_nil_left r).symm⟩⟩
      | a :: l', [] =>
          rw [mergeCountRun_nil_right]
          exact ⟨by simp, fun hl _ => ⟨hl, (yInvCount_nil_right _).symm⟩⟩
      | a :: l', b :: r' =>
          by_cases hba : b.2 < a.2
          · rw [mergeCountRun_cons_lt l' r' hba]
            have hrec := ih (((a :: l').length + r'.length))
              (by simp at hN ⊢; omega) (a :: l') r' rfl
            constructor
            · exact (hrec.1.cons b).trans List.perm_middle.symm
            · intro hl hr
              obtain ⟨hr1, hr2⟩ := List.sorted_cons.mp hr
              obtain ⟨hsorted, hcount⟩ := hrec.2 hl hr2
              refine ⟨List.sorted_cons.mpr ⟨?_, hsorted⟩, ?_⟩
              · intro c hc
                have hc' : c ∈ (a :: l') ++ r' := hrec.1.mem_iff.mp hc
                rw [List.mem_append] at hc'
                rcases hc' with hc' | hc'
                · -- c is a left element: b.2 < a.2 ≤ c.2
                  rcases List.mem_cons.mp hc' with hc' | hc'
                  · rw [hc']; exact le_of_lt hba
                  · exact le_of_lt (lt_of_lt_of_le hba
                      ((List.sorted_cons.mp hl).1 c hc'))
                · exact hr1 c hc'
              · rw [hcount, yInvCount_cons_right]
                dsimp only
                congr 1
                symm
                rw [List.countP_eq_length]
                intro c hc
                rcases List.mem_cons.mp hc with hc' | hc'
                · simpa [hc'] using hba
                · simpa using lt_of_lt_of_le hba ((List.sorted_cons.mp hl).1 c hc')
          · rw [mergeCountRun_cons_ge l' r' hba]
            have hrec := ih ((l'.length + (b :: r').length))
              (by simp at hN ⊢; omega) l' (b :: r') rfl
            constructor
            · exact hrec.1.cons a
            · intro hl hr
              obtain ⟨hl1, hl2⟩ := List.sorted_cons.mp hl
              obtain ⟨hsorted, hcount⟩ := hrec.2 hl2 hr
              have hab : a.2 ≤ b.2 := le_of_not_lt hba
              refine ⟨List.sorted_cons.mpr ⟨?_, hsorted⟩, ?_⟩
              · intro c hc
                have hc' : c ∈ l' ++ (b :: r') := hrec.1.mem_iff.mp hc
                rw [List.mem_append] at hc'
                rcases hc' with hc' | hc'
                · exact hl1 c hc'
                · rcases List.mem_cons.mp hc' with hc' | hc'
                  · rw [hc']; exact hab
                  · exact le_trans hab ((List.sorted_cons.mp hr).1 c hc')
              · rw [hcount, yInvCount_cons_left, List.countP_eq_zero.mpr, Nat.zero_add]
                intro c hc
                rcases List.mem_cons.mp hc with hc' | hc'
                · simpa [hc'] using hba
                · simpa using not_lt.mpr (le_trans hab ((List.sorted_cons.mp hr).1 c hc'))

/-- The invariant of the bottom-up merge sort: every `s`-sized chunk is
sorted by y. -/
def chunkSorted (s : ℕ) (l : List KPair) : Prop :=
  if h : l = [] ∨ s = 0 then True
  else
    have : (l.drop s).length < l.length := by
      rw [not_or] at h
      have hl : 0 < l.length := List.length_pos.mpr h.1
      have hs : s ≠ 0 := h.2
      rw [List.length_drop]
      omega
    ySorted (l.take s) ∧ chunkSorted s (l.drop s)
termination_by l.length

theorem chunkSorted_nil (s : ℕ) : chunkSorted s [] := by
  rw [chunkSorted]
  simp

theorem chunkSorted_iff {s : ℕ} {l : List KPair} (h : ¬(l = [] ∨ s = 0)) :
    chunkSorted s l ↔ ySorted (l.take s) ∧ chunkSorted s (l.drop s) := by
  rw [chunkSorted, dif_neg h]

theorem chunkSorted_head {s : ℕ} {l : List KPair} (h : chunkSorted s l)
    (hs : s ≠ 0) : ySorted (l.take s) := by
  by_cases hl : l = []
  · rw [hl]
    simp
  · exact ((chunkSorted_iff (by simp [hl, hs])).mp h).1

theorem chunkSorted_tail {s : ℕ} {l : List KPair} (h : chunkSorted s l)
    (hs : s ≠ 0) : chunkSorted s (l.drop s) := by
  by_cases hl : l = []
  · rw [hl, List.drop_nil]
    exact chunkSorted_nil s
  · exact ((chunkSorted_iff (by simp [hl, hs])).mp h).2

theorem chunkSorted_one : ∀ (N : ℕ) (l : List KPair), l.length = N → chunkSorted 1 l := by
  intro N
  induction N using Nat.strong_induction_on with
  | _ N ih =>
      intro l hN
      match l with
      | [] => exact chunkSorted_nil 1
      | a :: t =>
          rw [chunkSorted_iff (by simp)]
          refine ⟨by simp, ?_⟩
          exact ih t.length (by simp [← hN]) (a :: t).tail rfl

theorem ySorted_of_chunkSorted {s : ℕ} {l : List KPair} (hle : l.length ≤ s)
    (h : chunkSorted s l) : ySorted l := by
  by_cases hl : l = []
  · rw [hl]
    exact List.sorted_nil
  · have hs : s ≠ 0 := by
      have := List.length_pos.mpr hl
      omega
    have := chunkSorted_head h hs
    rwa [List.take_of_length_le hle] at this

theorem mergePass_nil (s : ℕ) : mergePass s [] = ([], 0) := by
  rw [mergePass]
  simp

theorem mergePass_eq {s : ℕ} {l : List KPair} (h : ¬(l = [] ∨ s = 0)) :
    mergePass s l =
      ((mergeCountRun ((l.take (2 * s)).take s) ((l.take (2 * s)).drop s)).1
          ++ (mergePass s (l.drop (2 * s))).1,
        (mergeCountRun ((l.take (2 * s)).take s) ((l.take (2 * s)).drop s)).2
          + (mergePass s (l.drop (2 * s))).2) := by
  rw [mergePass, dif_neg h]

theorem mergePass_spec :
    ∀ (N : ℕ) (s : ℕ) (l : List KPair), 0 < s → l.length = N → chunkSorted s l →
      List.Perm (mergePass s l).1 l
      ∧ chunkSorted (2 * s) (mergePass s l).1
      ∧ (mergePass s l).2 + yInv (mergePass s l).1 = yInv l := by
  intro N
  induction N using Nat.strong_induction_on with
  | _ N ih =>
      intro s l hs hN hcs
      by_cases hl : l = []
      · subst hl
        rw [mergePass_nil]
        exact ⟨List.Perm.refl _, chunkSorted_nil _, rfl⟩
      · have hne : ¬(l = [] ∨ s = 0) := by simp [hl]; omega
        rw [mergePass_eq hne]
        have hA : (l.take (2 * s)).take s = l.take s := by
          rw [List.take_take, min_eq_left (by omega)]
        have hB : (l.take (2 * s)).drop s = (l.drop s).take s := by
          rw [List.drop_take]
          congr 1
          omega
        have hAs : ySorted ((l.take (2 * s)).take s) := by
          rw [hA]
          exact chunkSorted_head hcs (by omega)
        have hBs : ySorted ((l.take (2 * s)).drop s) := by
          rw [hB]
          exact chunkSorted_head (chunkSorted_tail hcs (by omega)) (by omega)
        have hAB : (l.take (2 * s)).take s ++ (l.take (2 * s)).drop s = l.take (2 * s) :=
          List.take_append_drop _ _
        obtain ⟨hmperm, hmrest⟩ := mergeCountRun_spec
          (((l.take (2 * s)).take s).length + ((l.take (2 * s)).drop s).length)
          ((l.take (2 * s)).take s) ((l.take (2 * s)).drop s) rfl
        obtain ⟨hmsort, hmcount⟩ := hmrest hAs hBs
        have hmperm' : List.Perm
            (mergeCountRun ((l.take (2 * s)).take s) ((l.take (2 * s)).drop s)).1
            (l.take (2 * s)) := by
          have h := hmperm
          rw [hAB] at h
          exact h
        have hdroplen : (l.drop (2 * s)).length < N := by
          rw [List.length_drop]
          have : 0 < l.length := List.length_pos.mpr hl
          omega
        have hdrop2 : chunkSorted s (l.drop (2 * s)) := by
          have h1 := chunkSorted_tail (chunkSorted_tail hcs (by omega)) (by omega)
          rwa [List.drop_drop, show s + s = 2 * s by ring] at h1
        obtain ⟨hrperm, hrchunk, hrcount⟩ := ih _ hdroplen s (l.drop (2 * s)) hs rfl hdrop2
        have hperm : List.Perm
            ((mergeCountRun ((l.take (2 * s)).take s) ((l.take (2 * s)).drop s)).1
              ++ (mergePass s (l.drop (2 * s))).1) l := by
          refine ((hmperm'.append hrperm).trans ?_)
          rw [List.take_append_drop]
        refine ⟨hperm, ?_, ?_⟩
        · -- chunk-sortedness of the output at size 2s
          set m1 := (mergeCountRun ((l.take (2 * s)).take s) ((l.take (2 * s)).drop s)).1 with hm1
          set rec1 := (mergePass s (l.drop (2 * s))).1 with hrec1
          have hm1len : m1.length = (l.take (2 * s)).length := hmperm'.length_eq
          by_cases hout : m1 ++ rec1 = []
          · rw [hout]
            exact chunkSorted_nil _
          · rw [chunkSorted_iff (by simp [hout]; omega)]
            have htake : (m1 ++ rec1).take (2 * s) = m1 := by
              have : m1.length = min (2 * s) l.length := by
                rw [hm1len, List.length_take]
              by_cases hc : l.length ≤ 2 * s
              · have hr0 : rec1 = [] := by
                  have : l.drop (2 * s) = [] := List.drop_eq_nil_of_le hc
                  rw [hrec1, this, mergePass_nil]
                rw [hr0, List.append_nil]
                exact List.take_of_length_le (by omega)
              · exact List.take_left' (by omega)
            have hdrop : (m1 ++ rec1).drop (2 * s) = rec1 := by
              by_cases hc : l.length ≤ 2 * s
              · have hr0 : rec1 = [] := by
                  have : l.drop (2 * s) = [] := List.drop_eq_nil_of_le hc
                  rw [hrec1, this, mergePass_nil]
                rw [hr0, List.append_nil]
                refine List.drop_eq_nil_of_le ?_
                rw [hm1len, List.length_take]
                omega
              · refine List.drop_left' ?_
                rw [hm1len, List.length_take]
                omega
            rw [htake, hdrop]
            exact ⟨hmsort, hrchunk⟩
        · -- swap counting
          set c := (mergeCountRun ((l.take (2 * s)).take s) ((l.take (2 * s)).drop s)).2
          set m1 := (mergeCountRun ((l.take (2 * s)).take s) ((l.take (2 * s)).drop s)).1
          set rec1 := (mergePass s (l.drop (2 * s))).1
          set rec2 := (mergePass s (l.drop (2 * s))).2
          have e1 : yInv (m1 ++ rec1) = yInv m1 + yInv rec1 + yInvCount m1 rec1 :=
            yInv_append _ _
          have e2 : yInv m1 = 0 := yInv_eq_zero_of_sorted hmsort
          have e3 : yInvCount m1 rec1 = yInvCount (l.take (2 * s)) (l.drop (2 * s)) :=
            yInvCount_perm hmperm' hrperm
          have e4 : yInv l = yInv (l.take (2 * s)) + yInv (l.drop (2 * s))
              + yInvCount (l.take (2 * s)) (l.drop (2 * s)) := by
            conv_lhs => rw [← List.take_append_drop (2 * s) l]
            exact yInv_append _ _
          have e5 : yInv (l.take (2 * s)) = c := by
            have h := yInv_append ((l.take (2 * s)).take s) ((l.take (2 * s)).drop s)
            rw [hAB] at h
            rw [h, yInv_eq_zero_of_sorted hAs, yInv_eq_zero_of_sorted hBs, hmcount]
            omega
          dsimp only
          omega

theorem mergeLoop_pos {n s : ℕ} {l : List KPair} (h : 0 < s ∧ s < n) :
    mergeLoop n s l =
      ((mergeLoop n (2 * s) (mergePass s l).1).1,
        (mergePass s l).2 + (mergeLoop n (2 * s) (mergePass s l).1).2) := by
  rw [mergeLoop, dif_pos h]

theorem mergeLoop_neg {n s : ℕ} {l : List KPair} (h : ¬(0 < s ∧ s < n)) :
    mergeLoop n s l = (l, 0) := by
  rw [mergeLoop, dif_neg h]

theorem mergeLoop_spec :
    ∀ (K n s : ℕ) (l : List KPair), n - s = K → 0 < s → l.length ≤ n →
      chunkSorted s l →
      List.Perm (mergeLoop n s l).1 l
      ∧ ySorted (mergeLoop n s l).1
      ∧ (mergeLoop n s l).2 + yInv (mergeLoop n s l).1 = yInv l := by
  intro K
  induction K using Nat.strong_induction_on with
  | _ K ih =>
      intro n s l hK hs hlen hcs
      by_cases hcond : 0 < s ∧ s < n
      · rw [mergeLoop_pos hcond]
        obtain ⟨hp1, hp2, hp3⟩ := mergePass_spec l.length s l hs rfl hcs
        have hlen' : (mergePass s l).1.length ≤ n := by
          rw [hp1.length_eq]
          exact hlen
        obtain ⟨hq1, hq2, hq3⟩ := ih (n - 2 * s) (by omega) n (2 * s) (mergePass s l).1
          rfl (by omega) hlen' hp2
        refine ⟨hq1.trans hp1, hq2, ?_⟩
        dsimp only
        omega
      · rw [mergeLoop_neg hcond]
        have hsn : n ≤ s := by omega
        exact ⟨List.Perm.refl _, ySorted_of_chunkSorted (le_trans hlen hsn) hcs, by dsimp only; omega⟩

/-- Total swap count of the bottom-up merge sort: the number of
y-inversions of the input; the output is a y-sorted permutation. -/
theorem mergeLoop_swaps {n : ℕ} {l : List KPair} (hlen : l.length ≤ n) :
    (mergeLoop n 1 l).2 = yInv l
    ∧ List.Perm (mergeLoop n 1 l).1 l
    ∧ ySorted (mergeLoop n 1 l).1 := by
  obtain ⟨h1, h2, h3⟩ := mergeLoop_spec (n - 1) n 1 l rfl (by omega) hlen
    (chunkSorted_one l.length l rfl)
  refine ⟨?_, h1, h2⟩
  have h0 : yInv (mergeLoop n 1 l).1 = 0 := yInv_eq_zero_of_sorted h2
  omega

theorem concordantB_symm (a b : KPair) : concordantB a b = concordantB b a :=
  decide_eq_decide.mpr or_comm

theorem discordantB_symm (a b : KPair) : discordantB a b = discordantB b a :=
  decide_eq_decide.mpr or_comm

theorem tiedXB_symm (a b : KPair) : tiedXB a b = tiedXB b a :=
  decide_eq_decide.mpr eq_comm

theorem tiedYB_symm (a b : KPair) : tiedYB a b = tiedYB b a :=
  decide_eq_decide.mpr eq_comm

theorem tiedXYB_symm (a b : KPair) : tiedXYB a b = tiedXYB b a :=
  decide_eq_decide.mpr
    ⟨fun h => ⟨h.1.symm, h.2.symm⟩, fun h => ⟨h.1.symm, h.2.symm⟩⟩

theorem ksum_succ (d : ℕ) : ksum (d + 1) = ksum d + (d + 1) := by
  unfold ksum
  rw [show (d + 1) * (d + 1 + 1) = d * (d + 1) + 2 * (d + 1) by ring]
  omega

theorem ksum_pred {c : ℕ} (h : 1 ≤ c) : ksum c = ksum (c - 1) + c := by
  obtain ⟨d, rfl⟩ := Nat.exists_eq_add_of_le h
  rw [Nat.add_comm 1 d, ksum_succ]
  simp

theorem lexLe_fst_le {p q : KPair} (h : lexLe p q = true) : p.1 ≤ q.1 := by
  unfold lexLe at h
  by_cases he : p.1 = q.1
  · exact le_of_eq he
  · rw [if_neg he] at h
    exact le_of_lt (by simpa using h)

theorem lexLe_snd_le_of_fst_eq {p q : KPair} (h : lexLe p q = true)
    (he : p.1 = q.1) : p.2 ≤ q.2 := by
  unfold lexLe at h
  rw [if_pos he] at h
  simpa using h

/-- On a lexicographically sorted list, y-inversions are exactly the
discordant pairs. -/
theorem yInv_eq_discordant_of_lexSorted :
    ∀ {l : List KPair}, lexSorted l → yInv l = pairCount discordantB l := by
  intro l h
  induction l with
  | nil => rfl
  | cons a rest ih =>
      obtain ⟨h1, h2⟩ := List.sorted_cons.mp h
      show rest.countP (fun b => b.2 < a.2) + yInv rest = _
      rw [ih h2]
      show _ = rest.countP (discordantB a) + pairCount discordantB rest
      congr 1
      refine List.countP_congr fun b hb => ?_
      have hab := h1 b hb
      by_cases he : a.1 = b.1
      · have hy : a.2 ≤ b.2 := lexLe_snd_le_of_fst_eq hab he
        simp only [discordantB, decide_eq_true_eq]
        constructor
        · intro hlt
          exact absurd hlt (not_lt.mpr hy)
        · intro hd
          rcases hd with ⟨hx, _⟩ | ⟨hx, _⟩
          · exact absurd he (ne_of_lt hx)
          · exact absurd he.symm (ne_of_lt hx)
      · have hx : a.1 < b.1 := lt_of_le_of_ne (lexLe_fst_le hab) he
        simp only [discordantB, decide_eq_true_eq]
        constructor
        · intro hlt
          exact Or.inl ⟨hx, hlt⟩
        · intro hd
          rcases hd with ⟨_, hlt⟩ | ⟨hx', _⟩
          · exact hlt
          · exact absurd hx (lt_asymm hx')

/-- Pointwise pair classification: every pair is concordant, discordant,
x-tied or y-tied, with doubly-tied pairs counted in both tie classes. -/
theorem pair_class_pointwise (a b : KPair) :
    (if concordantB a b then 1 else 0) + (if discordantB a b then 1 else 0)
      + (if tiedXB a b then 1 else 0) + (if tiedYB a b then 1 else 0)
    = 1 + (if tiedXYB a b then 1 else 0) := by
  rcases lt_trichotomy a.1 b.1 with hx | hx | hx <;>
    rcases lt_trichotomy a.2 b.2 with hy | hy | hy <;>
      simp [concordantB, discordantB, tiedXB, tiedYB, tiedXYB, hx, hy,
        ne_of_lt, ne_of_gt, lt_asymm, not_lt_of_lt]

theorem countP_classification (a : KPair) :
    ∀ rest : List KPair,
      rest.countP (concordantB a) + rest.countP (discordantB a)
        + rest.countP (tiedXB a) + rest.countP (tiedYB a)
      = rest.countP (fun _ => true) + rest.countP (tiedXYB a) := by
  intro rest
  induction rest with
  | nil => rfl
  | cons b rest ih =>
      simp only [List.countP_cons, if_true]
      have hpt := pair_class_pointwise a b
      omega

/-- The global pair classification identity. -/
theorem pair_classification (l : List KPair) :
    pairCount concordantB l + pairCount discordantB l
      + pairCount tiedXB l + pairCount tiedYB l
    = pairCount (fun _ _ => true) l + pairCount tiedXYB l := by
  induction l with
  | nil => rfl
  | cons a rest ih =>
      have hcp := countP_classification a rest
      simp only [pairCount] at ih ⊢
      omega

theorem two_mul_pairCount_true :
    ∀ l : List KPair, 2 * pairCount (fun _ _ => true) l = l.length * (l.length - 1) := by
  intro l
  induction l with
  | nil => rfl
  | cons a rest ih =>
      show 2 * (rest.countP (fun _ => true) + pairCount (fun _ _ => true) rest) = _
      rw [List.countP_true]
      show _ = (rest.length + 1) * ((rest.length + 1) - 1)
      rw [show (rest.length + 1) * ((rest.length + 1) - 1)
          = rest.length * (rest.length - 1) + 2 * rest.length by
        rcases rest.length with _ | m
        · rfl
        · simp only [Nat.add_sub_cancel]
          ring]
      omega

theorem xWalk_cons (st : XStats) (prev : KPair) (cxt cxy : ℕ) (curr : KPair)
    (rest : List KPair) :
    xWalk st prev cxt cxy (curr :: rest)
      = if curr.1 = prev.1 then
          (if curr.2 = prev.2 then xWalk st curr (cxt + 1) (cxy + 1) rest
           else xWalk { st with tied_xy_pairs := st.tied_xy_pairs + ksum (cxy - 1) }
             curr (cxt + 1) 1 rest)
        else xWalk (update_x_group st cxt cxy) curr 1 1 rest := rfl

theorem yWalk_cons (st : YStats) (prev : KPair) (cyt : ℕ) (curr : KPair)
    (rest : List KPair) :
    yWalk st prev cyt (curr :: rest)
      = if curr.2 = prev.2 then yWalk st curr (cyt + 1) rest
        else yWalk (update_y_group st cyt) curr 1 rest := rfl

theorem xWalk_tied_x :
    ∀ (rest : List KPair) (prev : KPair) (cxt cxy : ℕ) (st : XStats),
      lexSorted (prev :: rest) → 1 ≤ cxt →
      (xWalk st prev cxt cxy rest).tied_x_pairs
        = st.tied_x_pairs + ksum (cxt - 1) + cxt * rest.countP (tiedXB prev)
          + pairCount tiedXB rest := by
  intro rest
  induction rest with
  | nil =>
      intro prev cxt cxy st _ _
      show (update_x_group st cxt cxy).tied_x_pairs = _
      simp [update_x_group, pairCount]
  | cons curr rest' ih =>
      intro prev cxt cxy st h hcxt
      obtain ⟨h1, htail⟩ := List.sorted_cons.mp h
      have hpc : lexLe prev curr = true := h1 curr (List.mem_cons_self _ _)
      by_cases hx : curr.1 = prev.1
      · have hfun : tiedXB prev = tiedXB curr := by
          funext b
          unfold tiedXB
          rw [← hx]
        have hcnt : (curr :: rest').countP (tiedXB prev)
            = rest'.countP (tiedXB curr) + 1 := by
          rw [List.countP_cons, if_pos (by simpa [tiedXB] using hx.symm), hfun]
        have harith : ∀ cp pc : ℕ,
            st.tied_x_pairs + ksum (cxt + 1 - 1) + (cxt + 1) * cp + pc
            = st.tied_x_pairs + ksum (cxt - 1) + cxt * (cp + 1) + (cp + pc) := by
          intro cp pc
          rw [Nat.add_sub_cancel, ksum_pred hcxt, Nat.succ_mul, Nat.mul_add]
          omega
        by_cases hy : curr.2 = prev.2
        · rw [xWalk_cons, if_pos hx, if_pos hy,
            ih curr (cxt + 1) (cxy + 1) st htail (by omega), hcnt]
          show _ = st.tied_x_pairs + ksum (cxt - 1)
            + cxt * (rest'.countP (tiedXB curr) + 1)
            + (rest'.countP (tiedXB curr) + pairCount tiedXB rest')
          exact harith _ _
        · rw [xWalk_cons, if_pos hx, if_neg hy,
            ih curr (cxt + 1) 1 _ htail (by omega), hcnt]
          show _ = st.tied_x_pairs + ksum (cxt - 1)
            + cxt * (rest'.countP (tiedXB curr) + 1)
            + (rest'.countP (tiedXB curr) + pairCount tiedXB rest')
          exact harith _ _
      · have hlt : prev.1 < curr.1 :=
          lt_of_le_of_ne (lexLe_fst_le hpc) (fun e => hx e.symm)
        have hcnt : (curr :: rest').countP (tiedXB prev) = 0 := by
          rw [List.countP_eq_zero]
          intro b hb
          rcases List.mem_cons.mp hb with hb | hb
          · subst hb
            simpa [tiedXB] using ne_of_lt hlt
          · have hcb := (List.sorted_cons.mp htail).1 b hb
            have : prev.1 < b.1 := lt_of_lt_of_le hlt (lexLe_fst_le hcb)
            simpa [tiedXB] using ne_of_lt this
        rw [xWalk_cons, if_neg hx, ih curr 1 1 _ htail (by omega), hcnt]
        show (update_x_group st cxt cxy).tied_x_pairs + ksum (1 - 1)
            + 1 * rest'.countP (tiedXB curr) + pairCount tiedXB rest'
          = st.tied_x_pairs + ksum (cxt - 1) + cxt * 0
            + (rest'.countP (tiedXB curr) + pairCount tiedXB rest')
        show st.tied_x_pairs + ksum (cxt - 1) + ksum (1 - 1)
            + 1 * rest'.countP (tiedXB curr) + pairCount tiedXB rest' = _
        simp [ksum]
        omega

theorem xWalk_tied_xy :
    ∀ (rest : List KPair) (prev : KPair) (cxt cxy : ℕ) (st : XStats),
      lexSorted (prev :: rest) → 1 ≤ cxy →
      (xWalk st prev cxt cxy rest).tied_xy_pairs
        = st.tied_xy_pairs + ksum (cxy - 1) + cxy * rest.countP (tiedXYB prev)
          + pairCount tiedXYB rest := by
  intro rest
  induction rest with
  | nil =>
      intro prev cxt cxy st _ _
      show (update_x_group st cxt cxy).tied_xy_pairs = _
      simp [update_x_group, pairCount]
  | cons curr rest' ih =>
      intro prev cxt cxy st h hcxy
      obtain ⟨h1, htail⟩ := List.sorted_cons.mp h
      have hpc : lexLe prev curr = true := h1 curr (List.mem_cons_self _ _)
      by_cases hx : curr.1 = prev.1
      · by_cases hy : curr.2 = prev.2
        · have hfun : tiedXYB prev = tiedXYB curr := by
            funext b
            unfold tiedXYB
            rw [← hx, ← hy]
          have hcnt : (curr :: rest').countP (tiedXYB prev)
              = rest'.countP (tiedXYB curr) + 1 := by
            rw [List.countP_cons, if_pos (by simp [tiedXYB, hx.symm, hy.symm]), hfun]
          rw [xWalk_cons, if_pos hx, if_pos hy,
            ih curr (cxt + 1) (cxy + 1) st htail (by omega), hcnt]
          rw [Nat.add_sub_cancel, ksum_pred hcxy, Nat.succ_mul, Nat.mul_add]
          show _ = st.tied_xy_pairs + ksum (cxy - 1)
            + (cxy * rest'.countP (tiedXYB curr) + cxy * 1)
            + (rest'.countP (tiedXYB curr) + pairCount tiedXYB rest')
          omega
        · have hylt : prev.2 < curr.2 :=
            lt_of_le_of_ne (lexLe_snd_le_of_fst_eq hpc hx.symm) (fun e => hy e.symm)
          have hcnt : (curr :: rest').countP (tiedXYB prev) = 0 := by
            rw [List.countP_eq_zero]
            intro b hb
            rcases List.mem_cons.mp hb with hb | hb
            · subst hb
              simp only [tiedXYB, decide_eq_true_eq, not_and]
              intro _
              exact fun e => hy (e.symm.trans rfl) |>.elim
            · have hcb := (List.sorted_cons.mp htail).1 b hb
              simp only [tiedXYB, decide_eq_true_eq, not_and]
              intro he1 he2
              have hbc : curr.1 = b.1 := hx.trans he1
              have : curr.2 ≤ b.2 := lexLe_snd_le_of_fst_eq hcb hbc
              rw [← he2] at this
              exact absurd hylt (not_lt.mpr this)
          rw [xWalk_cons, if_pos hx, if_neg hy,
            ih curr (cxt + 1) 1 _ htail (by omega), hcnt]
          show st.tied_xy_pairs + ksum (cxy - 1) + ksum (1 - 1)
              + 1 * rest'.countP (tiedXYB curr) + pairCount tiedXYB rest'
            = st.tied_xy_pairs + ksum (cxy - 1) + cxy * 0
              + (rest'.countP (tiedXYB curr) + pairCount tiedXYB rest')
          simp [ksum]
          omega
      · have hlt : prev.1 < curr.1 :=
          lt_of_le_of_ne (lexLe_fst_le hpc) (fun e => hx e.symm)
        have hcnt : (curr :: rest').countP (tiedXYB prev) = 0 := by
          rw [List.countP_eq_zero]
          intro b hb
          rcases List.mem_cons.mp hb with hb | hb
          · subst hb
            simp only [tiedXYB, decide_eq_true_eq, not_and]
            intro he
            exact absurd he (ne_of_lt hlt)
          · have hcb := (List.sorted_cons.mp htail).1 b hb
            simp only [tiedXYB, decide_eq_true_eq, not_and]
            intro he
            exact absurd he (ne_of_lt (lt_of_lt_of_le hlt (lexLe_fst_le hcb)))
        rw [xWalk_cons, if_neg hx, ih curr 1 1 _ htail (by omega), hcnt]
        show st.tied_xy_pairs + ksum (cxy - 1) + ksum (1 - 1)
            + 1 * rest'.countP (tiedXYB curr) + pairCount tiedXYB rest'
          = st.tied_xy_pairs + ksum (cxy - 1) + cxy * 0
            + (rest'.countP (tiedXYB curr) + pairCount tiedXYB rest')
        simp [ksum]
        omega

theorem yWalk_tied_y :
    ∀ (rest : List KPair) (prev : KPair) (cyt : ℕ) (st : YStats),
      ySorted (prev :: rest) → 1 ≤ cyt →
      (yWalk st prev cyt rest).tied_y_pairs
        = st.tied_y_pairs + ksum (cyt - 1) + cyt * rest.countP (tiedYB prev)
          + pairCount tiedYB rest := by
  intro rest
  induction rest with
  | nil =>
      intro prev cyt st _ _
      show (update_y_group st cyt).tied_y_pairs = _
      simp [update_y_group, pairCount]
  | cons curr rest' ih =>
      intro prev cyt st h hcyt
      obtain ⟨h1, htail⟩ := List.sorted_cons.mp h
      have hpc : prev.2 ≤ curr.2 := h1 curr (List.mem_cons_self _ _)
      by_cases hy : curr.2 = prev.2
      · have hfun : tiedYB prev = tiedYB curr := by
          funext b
          unfold tiedYB
          rw [← hy]
        have hcnt : (curr :: rest').countP (tiedYB prev)
            = rest'.countP (tiedYB curr) + 1 := by
          rw [List.countP_cons, if_pos (by simpa [tiedYB] using hy.symm), hfun]
        rw [yWalk_cons, if_pos hy, ih curr (cyt + 1) st htail (by omega), hcnt]
        rw [Nat.add_sub_cancel, ksum_pred hcyt, Nat.succ_mul, Nat.mul_add]
        show _ = st.tied_y_pairs + ksum (cyt - 1)
          + (cyt * rest'.countP (tiedYB curr) + cyt * 1)
          + (rest'.countP (tiedYB curr) + pairCount tiedYB rest')
        omega
      · have hlt : prev.2 < curr.2 := lt_of_le_of_ne hpc (fun e => hy e.symm)
        have hcnt : (curr :: rest').countP (tiedYB prev) = 0 := by
          rw [List.countP_eq_zero]
          intro b hb
          rcases List.mem_cons.mp hb with hb | hb
          · subst hb
            simpa [tiedYB] using ne_of_lt hlt
          · have hcb := (List.sorted_cons.mp htail).1 b hb
            simpa [tiedYB] using ne_of_lt (lt_of_lt_of_le hlt hcb)
        rw [yWalk_cons, if_neg hy, ih curr 1 _ htail (by omega), hcnt]
        show st.tied_y_pairs + ksum (cyt - 1) + ksum (1 - 1)
            + 1 * rest'.countP (tiedYB curr) + pairCount tiedYB rest'
          = st.tied_y_pairs + ksum (cyt - 1) + cyt * 0
            + (rest'.countP (tiedYB curr) + pairCount tiedYB rest')
        simp [ksum]
        omega

theorem xScan_tied_x {l : List KPair} (h : lexSorted l) :
    (xScan l).tied_x_pairs = pairCount tiedXB l := by
  match l with
  | [] => rfl
  | p :: rest =>
      show (xWalk XStats.init p 1 1 rest).tied_x_pairs = _
      rw [xWalk_tied_x rest p 1 1 XStats.init h (by omega)]
      show 0 + ksum 0 + 1 * rest.countP (tiedXB p) + pairCount tiedXB rest
        = rest.countP (tiedXB p) + pairCount tiedXB rest
      simp [ksum]

theorem xScan_tied_xy {l : List KPair} (h : lexSorted l) :
    (xScan l).tied_xy_pairs = pairCount tiedXYB l := by
  match l with
  | [] => rfl
  | p :: rest =>
      show (xWalk XStats.init p 1 1 rest).tied_xy_pairs = _
      rw [xWalk_tied_xy rest p 1 1 XStats.init h (by omega)]
      show 0 + ksum 0 + 1 * rest.countP (tiedXYB p) + pairCount tiedXYB rest
        = rest.countP (tiedXYB p) + pairCount tiedXYB rest
      simp [ksum]

theorem yScan_tied_y {l : List KPair} (h : ySorted l) :
    (yScan l).tied_y_pairs = pairCount tiedYB l := by
  match l with
  | [] => rfl
  | p :: rest =>
      show (yWalk YStats.init p 1 rest).tied_y_pairs = _
      rw [yWalk_tied_y rest p 1 YStats.init h (by omega)]
      show 0 + ksum 0 + 1 * rest.countP (tiedYB p) + pairCount tiedYB rest
        = rest.countP (tiedYB p) + pairCount tiedYB rest
      simp [ksum]

/-- C4: for every pair of equal-length vectors, (1) the swap count of the
stable merge sort by y equals the number of discordant pairs of the zipped
input; (2) concordant − discordant = total_pairs − tied_x − tied_y + tied_xy
− 2·swaps (as integers, with total_pairs the brute-force count of all
unordered index pairs); and (3) the statistic returned by
`tau_b_with_comparator` is exactly
(concordant − discordant) / sqrt((total_pairs − tied_x) · (total_pairs −
tied_y)) clamped to [−1, 1], with every count the reference brute-force
pair count. -/
theorem claim_C4_tau_b (x y : List ℚ) (h : x.length = y.length) :
    (mergeLoop x.length 1 ((x.zip y).mergeSort lexLe)).2
        = pairCount discordantB (x.zip y)
    ∧ (pairCount concordantB (x.zip y) : ℤ)
          - (pairCount discordantB (x.zip y) : ℤ)
        = (pairCount (fun _ _ => true) (x.zip y) : ℤ)
          - (pairCount tiedXB (x.zip y) : ℤ)
          - (pairCount tiedYB (x.zip y) : ℤ)
          + (pairCount tiedXYB (x.zip y) : ℤ)
          - 2 * ((mergeLoop x.length 1 ((x.zip y).mergeSort lexLe)).2 : ℤ)
    ∧ (tau_b_with_comparator x y).1
        = ((FP.fin ((pairCount concordantB (x.zip y) : ℚ)
              - (pairCount discordantB (x.zip y) : ℚ))).div
            (FP.sqrt (FP.fin
              (((pairCount (fun _ _ => true) (x.zip y) : ℚ)
                  - (pairCount tiedXB (x.zip y) : ℚ))
                * ((pairCount (fun _ _ => true) (x.zip y) : ℚ)
                  - (pairCount tiedYB (x.zip y) : ℚ)))))).clamp
          (FP.fin (-1)) (FP.fin 1) := by
  have hplen : (x.zip y).length = x.length := by
    rw [List.length_zip, h, min_self]
  have hperm : List.Perm ((x.zip y).mergeSort lexLe) (x.zip y) :=
    List.mergeSort_perm _ _
  have hlex : lexSorted ((x.zip y).mergeSort lexLe) :=
    @List.sorted_mergeSort KPair lexLe
      (fun a b c hab hbc => lexLe_trans hab hbc) lexLe_total (x.zip y)
  obtain ⟨hsw, hmlperm, hmlsorted⟩ :=
    @mergeLoop_swaps x.length ((x.zip y).mergeSort lexLe)
      (le_of_eq (by rw [hperm.length_eq, hplen]))
  have hD : (mergeLoop x.length 1 ((x.zip y).mergeSort lexLe)).2
      = pairCount discordantB (x.zip y) := by
    rw [hsw, yInv_eq_discordant_of_lexSorted hlex]
    exact pairCount_perm discordantB_symm hperm
  have hx_t : (xScan ((x.zip y).mergeSort lexLe)).tied_x_pairs
      = pairCount tiedXB (x.zip y) := by
    rw [xScan_tied_x hlex]
    exact pairCount_perm tiedXB_symm hperm
  have hxy_t : (xScan ((x.zip y).mergeSort lexLe)).tied_xy_pairs
      = pairCount tiedXYB (x.zip y) := by
    rw [xScan_tied_xy hlex]
    exact pairCount_perm tiedXYB_symm hperm
  have hy_t : (yScan (mergeLoop x.length 1 ((x.zip y).mergeSort lexLe)).1).tied_y_pairs
      = pairCount tiedYB (x.zip y) := by
    rw [yScan_tied_y hmlsorted]
    exact pairCount_perm tiedYB_symm (hmlperm.trans hperm)
  have hcls := pair_classification (x.zip y)
  refine ⟨hD, ?_, ?_⟩
  · rw [hD]
    omega
  · have hTn : x.length * (x.length - 1)
        = 2 * pairCount (fun _ _ => true) (x.zip y) := by
      rw [← hplen]
      exact (two_mul_pairCount_true (x.zip y)).symm
    have hTq : ((x.length * (x.length - 1) : ℕ) : ℚ)
        = 2 * (pairCount (fun _ _ => true) (x.zip y) : ℚ) := by
      rw [hTn]
      push_cast
      ring
    have hclsQ : (pairCount concordantB (x.zip y) : ℚ)
          + (pairCount discordantB (x.zip y) : ℚ)
          + (pairCount tiedXB (x.zip y) : ℚ)
          + (pairCount tiedYB (x.zip y) : ℚ)
        = (pairCount (fun _ _ => true) (x.zip y) : ℚ)
          + (pairCount tiedXYB (x.zip y) : ℚ) := by
      exact_mod_cast hcls
    have hcongr : ∀ a a' b b' : ℚ, a = a' → b = b' →
        ((FP.fin a).div (FP.sqrt (FP.fin b))).clamp (FP.fin (-1)) (FP.fin 1)
          = ((FP.fin a').div (FP.sqrt (FP.fin b'))).clamp (FP.fin (-1)) (FP.fin 1) := by
      intro a a' b b' h1 h2
      rw [h1, h2]
    simp only [tau_b_with_comparator]
    rw [hx_t, hy_t, hxy_t, hD, hTq]
    apply hcongr
    · push_cast
      linarith [hclsQ]
    · ring

theorem claim_C4_tau_b_witness :
    [(1 : ℚ), 2].length = [(2 : ℚ), 1].length
    ∧ ((mergeLoop [(1 : ℚ), 2].length 1
            (([(1 : ℚ), 2].zip [(2 : ℚ), 1]).mergeSort lexLe)).2
          = pairCount discordantB ([(1 : ℚ), 2].zip [(2 : ℚ), 1])
      ∧ (pairCount concordantB ([(1 : ℚ), 2].zip [(2 : ℚ), 1]) : ℤ)
            - (pairCount discordantB ([(1 : ℚ), 2].zip [(2 : ℚ), 1]) : ℤ)
          = (pairCount (fun _ _ => true) ([(1 : ℚ), 2].zip [(2 : ℚ), 1]) : ℤ)
            - (pairCount tiedXB ([(1 : ℚ), 2].zip [(2 : ℚ), 1]) : ℤ)
            - (pairCount tiedYB ([(1 : ℚ), 2].zip [(2 : ℚ), 1]) : ℤ)
            + (pairCount tiedXYB ([(1 : ℚ), 2].zip [(2 : ℚ), 1]) : ℤ)
            - 2 * ((mergeLoop [(1 : ℚ), 2].length 1
                (([(1 : ℚ), 2].zip [(2 : ℚ), 1]).mergeSort lexLe)).2 : ℤ)
      ∧ (tau_b_with_comparator [(1 : ℚ), 2] [(2 : ℚ), 1]).1
          = ((FP.fin ((pairCount concordantB ([(1 : ℚ), 2].zip [(2 : ℚ), 1]) : ℚ)
                - (pairCount discordantB ([(1 : ℚ), 2].zip [(2 : ℚ), 1]) : ℚ))).div
              (FP.sqrt (FP.fin
                (((pairCount (fun _ _ => true) ([(1 : ℚ), 2].zip [(2 : ℚ), 1]) : ℚ)
                    - (pairCount tiedXB ([(1 : ℚ), 2].zip [(2 : ℚ), 1]) : ℚ))
                  * ((pairCount (fun _ _ => true) ([(1 : ℚ), 2].zip [(2 : ℚ), 1]) : ℚ)
                    - (pairCount tiedYB ([(1 : ℚ), 2].zip [(2 : ℚ), 1]) : ℚ)))))).clamp
            (FP.fin (-1)) (FP.fin 1)) :=
  ⟨rfl, claim_C4_tau_b [(1 : ℚ), 2] [(2 : ℚ), 1] rfl⟩

end Ggca
